import Mathlib

/-!
Verification of the gitcat specification against a shallow embedding of
`gitcat.py`.  Strings are modelled as `List Char`; the catalogue is an
association list preserving insertion order; the external git tool and the
filesystem are modelled as per-repository oracles recording, for each call
site, the exit status and captured output of that call.
-/

set_option maxRecDepth 10000

/- ------------------------------------------------------------------ -/
/- Python string primitives used by gitcat                            -/
/- ------------------------------------------------------------------ -/

/-- The whitespace characters removed by Python `str.strip()` (ASCII part). -/
def isPySpace (c : Char) : Bool :=
  c = ' ' || c = '\t' || c = '\n' || c = '\r' || c = '\x0B' || c = '\x0C'

/-- Leading-whitespace removal, the left half of Python `str.strip()`. -/
def stripLeft (s : List Char) : List Char := s.dropWhile isPySpace

/-- Trailing-whitespace removal, the right half of Python `str.strip()`. -/
def stripRight (s : List Char) : List Char := (s.reverse.dropWhile isPySpace).reverse

/-- Python `str.strip()`: removes leading and trailing whitespace. -/
def pystrip (s : List Char) : List Char := stripLeft (stripRight s)

/-- Python `pat in s` for a fixed pattern `pat`: substring containment,
scanning left to right. -/
def occurs (pat : List Char) : List Char → Bool
  | [] => pat.isPrefixOf []
  | c :: s => pat.isPrefixOf (c :: s) || occurs pat s

/-- The literal separator `" = "` of the catalogue file format. -/
def sepChars : List Char := [' ', '=', ' ']

/-- Python `s.split(' = ')`: splits on every (non-overlapping, leftmost)
occurrence of the three-character separator.  `acc` holds the reversed
characters of the current fragment. -/
def splitSep (acc : List Char) : List Char → List (List Char)
  | [] => [acc.reverse]
  | c :: s =>
    if sepChars.isPrefixOf (c :: s) then
      match s with
      | _ :: _ :: s2 => acc.reverse :: splitSep [] s2
      | _ => [acc.reverse]
    else splitSep (c :: acc) s

/-- Splitting a text into lines at `'\n'`, as iterating a Python text file
does (line terminators dropped; stripping in the consumer makes the
difference immaterial). -/
def splitNl (acc : List Char) : List Char → List (List Char)
  | [] => [acc.reverse]
  | c :: s => if c = '\n' then acc.reverse :: splitNl [] s else splitNl (c :: acc) s

/-- Python `'\n'.join(lines)`. -/
def joinNl : List (List Char) → List Char
  | [] => []
  | [l] => l
  | l :: l2 :: ls => l ++ '\n' :: joinNl (l2 :: ls)

/-- Python `'{:<{w}}'.format(s)`: pad `s` on the right with spaces to the
minimum width `w` (no truncation). -/
def padTo (w : Nat) (s : List Char) : List Char := s ++ List.replicate (w - s.length) ' '

/-- Python `os.path.basename`: the part after the last `'/'`. -/
def basename (s : List Char) : List Char := (s.reverse.takeWhile (fun c => !(c = '/'))).reverse

/-- `GitCat.expand_path`: prepend the prefix directory unless the path is
absolute (`os.path.join` modelled as insertion of a single `'/'`). -/
def expandPath (pfx dire : List Char) : List Char :=
  match dire with
  | '/' :: _ => dire
  | _ => pfx ++ '/' :: dire

/-- `GitCat.short_path`: drop the prefix (and the following `'/'`) when the
directory starts with it. -/
def shortPath (pfx s : List Char) : List Char :=
  if pfx.isPrefixOf s then s.drop (pfx.length + 1) else s

/-- Python `s.split('\n')[0]`. -/
def firstLine (s : List Char) : List Char := s.takeWhile (fun c => !(c = '\n'))

/- ------------------------------------------------------------------ -/
/- Catalogue store: GitCat.read_catalogue / GitCat.save_catalogue     -/
/- ------------------------------------------------------------------ -/

/-- The state built by `GitCat.read_catalogue`: the association list
`self.catalogue` (insertion order preserved, as for a Python dict) and
the prefix directory `self.prefix`. -/
structure CatState where
  cat : List (List Char × List Char)
  pfx : List Char
deriving DecidableEq

/-- How a catalogue load can fail: `unpack` is the uncaught `ValueError`
raised by `dire, rep = line.split(' = ')` when the split does not yield
exactly two parts; `duplicate` is the `error_message` exit taken when a
directory key repeats. -/
inductive LoadErr
  | unpack
  | duplicate
deriving DecidableEq

/-- Python `dire in self.catalogue` on the association list. -/
def keyMem (k : List Char) (cat : List (List Char × List Char)) : Bool :=
  cat.any (fun p => p.1 == k)

/-- Embedding of the condition `dire.lower == 'prefix'` in
`GitCat.read_catalogue`: the source compares the *bound method object*
`dire.lower` (it is not called) against the string `'prefix'`, so the
comparison evaluates to `False` for every string `dire`. -/
def prefixCheck (_ : List Char) : Bool := false

/-- Processing of one line of the catalogue file by
`GitCat.read_catalogue`: lines without `" = "` are ignored; otherwise the
line is split on every occurrence of `" = "` and destructured into exactly
two parts (anything else raises `ValueError`); the directory part is
stripped, checked against the catalogue for duplicates, diverted to the
prefix setting when `prefixCheck` holds (it never does), and otherwise
inserted with the stripped remote. -/
def loadLine (st : CatState) (line : List Char) : Except LoadErr CatState :=
  if occurs sepChars line then
    match splitSep [] line with
    | [d, r] =>
      let d2 := pystrip d
      if keyMem d2 st.cat then Except.error LoadErr.duplicate
      else if prefixCheck d2 then Except.ok { st with pfx := pystrip r }
      else Except.ok { st with cat := st.cat ++ [(d2, pystrip r)] }
    | _ => Except.error LoadErr.unpack
  else Except.ok st

/-- `GitCat.read_catalogue` over a list of lines, starting from state `st`. -/
def loadLines (st : CatState) : List (List Char) → Except LoadErr CatState
  | [] => Except.ok st
  | l :: ls =>
    match loadLine st l with
    | Except.ok st2 => loadLines st2 ls
    | Except.error e => Except.error e

/-- `GitCat.read_catalogue` on the full text of a catalogue file, with
initial prefix `pfx0` and an empty catalogue. -/
def loadFile (text : List Char) (pfx0 : List Char) : Except LoadErr CatState :=
  loadLines { cat := [], pfx := pfx0 } (splitNl [] text)

/-- The header comment written by `GitCat.save_catalogue`. -/
def headerChars : List Char := "# List of git repositories to sync using gitcat".data

/-- The key of the settings line written by `Settings.save_settings`. -/
def prefixKeyChars : List Char := "prefix".data

/-- `self.max` as computed at the end of `GitCat.read_catalogue`: one more
than the longest directory key, or `0` for an empty catalogue. -/
def maxKey (cat : List (List Char × List Char)) : Nat :=
  match cat with
  | [] => 0
  | _ => (cat.map (fun p => p.1.length)).foldr Nat.max 0 + 1

/-- One line of `GitCat.list_catalogue` with `listing=True`:
`'{dire:<{max}} {sep} {rep}'` with `sep = '='`. -/
def entryLine (w : Nat) (p : List Char × List Char) : List Char :=
  padTo w p.1 ++ sepChars ++ p.2

/-- `Settings.save_settings`: empty unless the prefix is non-default, in
which case the single line `prefix = <value>` (with trailing newline). -/
def settingsText : Option (List Char) → List Char
  | none => []
  | some pr => prefixKeyChars ++ sepChars ++ pr ++ ['\n']

/-- `GitCat.save_catalogue`: the header comment and a blank line, the
settings text, then one entry line per catalogue member in insertion
order, joined by newlines, with a final newline. -/
def saveFile (opr : Option (List Char)) (cat : List (List Char × List Char)) : List Char :=
  headerChars ++ '\n' :: '\n' ::
    (settingsText opr ++ (joinNl (cat.map (entryLine (maxKey cat))) ++ ['\n']))

/- ------------------------------------------------------------------ -/
/- Command executor: class Git                                        -/
/- ------------------------------------------------------------------ -/

/-- Python `s.replace('\n', '\n  ')`. -/
def replaceNlIndent (s : List Char) : List Char :=
  s.flatMap (fun c => if c = '\n' then ['\n', ' ', ' '] else [c])

/-- Python `s.replace('\r', '\n  ')`. -/
def replaceCrIndent (s : List Char) : List Char :=
  s.flatMap (fun c => if c = '\r' then ['\n', ' ', ' '] else [c])

/-- Python `s.replace('\r', '\n')`. -/
def crToNl (s : List Char) : List Char :=
  s.map (fun c => if c = '\r' then '\n' else c)

/-- The indented stderr text placed into `Git.error_message`:
`stderr.decode().strip().replace('\n', '\n  ').replace('\r', '\n  ')`. -/
def indentStderr (stderr : List Char) : List Char :=
  replaceCrIndent (replaceNlIndent (pystrip stderr))

/-- `Git.output`: stdout and stderr lines (after `'\r'` normalisation and
stripping), blank lines removed, each remaining line stripped and indented
by two spaces, joined by newlines. -/
def normalizeOut (stdout stderr : List Char) : List Char :=
  joinNl ((((splitNl [] (pystrip (crToNl stdout))) ++ (splitNl [] (pystrip (crToNl stderr)))).filter
    (fun l => !(l = []))).map (fun l => ' ' :: ' ' :: pystrip l))

/-- The record built by `Git.__init__` from the subprocess result. -/
structure GitRes where
  rep : List Char
  returncode : Int
  command : List Char
  gitCommandOk : Bool
  errMsg : Option (List Char)
  output : List Char
deriving DecidableEq

/-- Embedding of `Git.__init__` as a function of the subprocess outcome
(exit status and captured stdout/stderr): stores the repository key, the
joined command, sets `git_command_ok` by the exit status, formats
`self.error_message` on a non-zero status, and normalizes the output.
No exception is raised on a non-zero status. -/
def mkGit (rep command options : List Char) (rc : Int) (stdout stderr : List Char) : GitRes :=
  { rep := rep
    returncode := rc
    command := command ++ ' ' :: options
    gitCommandOk := rc == 0
    errMsg :=
      if rc == 0 then none
      else some (rep ++ ": there was an error using git ".data ++ command ++ ' ' :: options ++
        '\n' :: ' ' :: ' ' :: indentStderr stderr ++ ['\n'])
    output := normalizeOut stdout stderr }

/-- `Git.__bool__`: the truth value of a `Git` result is `git_command_ok`. -/
def gitBool (g : GitRes) : Bool := g.gitCommandOk

/- ------------------------------------------------------------------ -/
/- Orchestrator: per-repository oracle and issued git calls           -/
/- ------------------------------------------------------------------ -/

/-- One issued invocation of the external git tool: the subcommand string
and the option string passed to `Git`. -/
structure GitCall where
  cmd : List Char
  opts : List Char
deriving DecidableEq

/-- One call to the message helpers: `rep_message(rep, msg, quiet)` or
`message(msg)` (the quiet flags decide printing downstream). -/
inductive Emit
  | repMsg (rep msg : List Char) (quietFlag : Bool)
  | plainMsg (msg : List Char)
deriving DecidableEq

/-- The git calls issued and messages emitted while processing one
repository. -/
structure StepOut where
  calls : List GitCall
  msgs : List Emit
deriving DecidableEq

/-- Oracle for one repository: the filesystem answers and the outcome
(exit status as a boolean, normalized output) of each git call site that
a command can reach for this repository.  The two regular-expression
extractions of `GitCat.status` are modelled abstractly as the result of
the stdlib regex search on the captured output (`none` = no match;
`some g` = the extracted text). -/
structure RepoEnv where
  dirExists : Bool
  gitDirExists : Bool
  revParseOk : Bool
  revParseOut : List Char
  diffIndexOk : Bool
  diffIndexOut : List Char
  commitOk : Bool
  commitOut : List Char
  pushDryOk : Bool
  pushDryOut : List Char
  pushRealOk : Bool
  pushRealOut : List Char
  fetchOk : Bool
  fetchOut : List Char
  pullOk : Bool
  pullOut : List Char
  branchOk : Bool
  branchOut : List Char
  remoteUpdateOk : Bool
  statusOk : Bool
  statusOut : List Char
  aheadBehind : Option (List Char)
  diffStatOk : Bool
  filesChanged : Option (List Char)
  diffOk : Bool
  diffOut : List Char
  cloneOk : Bool
  dirExistsAfter : Bool
  revParseOk2 : Bool
  revParseOut2 : List Char

def trueChars : List Char := "true".data

def upToDateChars : List Char := "[up to date]".data

def dryRunChars : List Char := "--dry-run".data

def porcelainChars : List Char := "--porcelain".data

def pushChars : List Char := "push".data

def commitChars : List Char := "commit".data

def cloneChars : List Char := "clone".data

/-- The probe `Git(rep, 'rev-parse', '--is-inside-work-tree')` issued by
`GitCat.is_git_repository` when the directory exists. -/
def probeCall : GitCall := { cmd := "rev-parse".data, opts := "--is-inside-work-tree".data }

/-- The calls issued by `GitCat.is_git_repository`: the rev-parse probe
when the directory exists, nothing otherwise. -/
def probeCalls (e : RepoEnv) : List GitCall := if e.dirExists then [probeCall] else []

/-- The result of `GitCat.is_git_repository`: the directory exists, the
probe exits zero and its output contains `'true'`. -/
def isRepoB (e : RepoEnv) : Bool :=
  e.dirExists && (e.revParseOk && occurs trueChars e.revParseOut)

/-- The call `Git(rep, 'diff-index', '--name-only HEAD')` of
`GitCat.changed_files`. -/
def diffIndexCall : GitCall := { cmd := "diff-index".data, opts := "--name-only HEAD".data }

/-- The option string of the commit in `GitCat.commit_repository`:
`'--all --message="git cat: updating <files>"'`, with `' --porcelain'`
appended when `self.dry_run` is set. -/
def commitOpts (dry : Bool) (changedOut : List Char) : List Char :=
  "--all --message=\"git cat: updating ".data ++ changedOut ++ ['"'] ++
    (if dry then " --porcelain".data else [])

/-- The commit call of `GitCat.commit_repository`. -/
def commitCall (dry : Bool) (changedOut : List Char) : GitCall :=
  { cmd := commitChars, opts := commitOpts dry changedOut }

/-- The calls issued by `GitCat.commit_repository`: the changed-files
probe, then the commit when the probe succeeded and listed files. -/
def commitRepoCalls (dry : Bool) (e : RepoEnv) : List GitCall :=
  if e.diffIndexOk && !(e.diffIndexOut = []) then [diffIndexCall, commitCall dry e.diffIndexOut]
  else [diffIndexCall]

/-- The `Git` record returned by `GitCat.commit_repository`, as its truth
value and output: the commit result when a commit was issued, otherwise
the changed-files result. -/
def commitRepoRes (_dry : Bool) (e : RepoEnv) : Bool × List Char :=
  if e.diffIndexOk && !(e.diffIndexOut = []) then (e.commitOk, e.commitOut)
  else (e.diffIndexOk, e.diffIndexOut)

/-- The dry-run probe push `Git(rep, 'push', options + ' --dry-run')`. -/
def pushDryCall (optsP : List Char) : GitCall :=
  { cmd := pushChars, opts := optsP ++ " --dry-run".data }

/-- The real push `Git(rep, 'push', options)`. -/
def pushRealCall (optsP : List Char) : GitCall := { cmd := pushChars, opts := optsP }

/-- The messages emitted for the real push in `GitCat.push`, classifying
its output: a success-shaped output (`'  To '` prefix and `'Done'` suffix)
or anything else, each reported through `rep_message` when the commit
output was empty and through `message` otherwise. -/
def pushRealMsgs (rep commitOut : List Char) (e : RepoEnv) : List Emit :=
  if e.pushRealOk then
    if "  To ".data.isPrefixOf e.pushRealOut && "Done".data.isSuffixOf e.pushRealOut then
      if commitOut = [] && !(occurs upToDateChars commitOut) then
        [Emit.repMsg rep ("pushed\n".data ++ e.pushRealOut) true]
      else [Emit.plainMsg (firstLine e.pushRealOut)]
    else
      if commitOut = [] && !(occurs upToDateChars commitOut) then
        [Emit.repMsg rep ("pushed\n".data ++ e.pushRealOut) true]
      else [Emit.plainMsg e.pushRealOut]
  else []

/-- `GitCat.push` for one repository: probe, commit step, dry-run push,
then — only when the dry run succeeded, did not report `'[up to date]'`
and global dry-run is off — the real push. -/
def pushStep (dry : Bool) (optsP rep : List Char) (e : RepoEnv) : StepOut :=
  if isRepoB e then
    let cres := commitRepoRes dry e
    let base := probeCalls e ++ commitRepoCalls dry e
    if cres.1 then
      let m1 := if !(cres.2 = []) then [Emit.repMsg rep ("commit\n".data ++ cres.2) true] else []
      if e.pushDryOk then
        if occurs upToDateChars e.pushDryOut then
          { calls := base ++ [pushDryCall optsP]
            msgs := m1 ++ [Emit.repMsg rep "up to date".data true] }
        else if dry then { calls := base ++ [pushDryCall optsP], msgs := m1 }
        else
          { calls := base ++ [pushDryCall optsP, pushRealCall optsP]
            msgs := m1 ++ pushRealMsgs rep cres.2 e }
      else { calls := base ++ [pushDryCall optsP], msgs := m1 }
    else { calls := base, msgs := [] }
  else { calls := probeCalls e, msgs := [Emit.repMsg rep "not on system".data true] }

/-- `GitCat.commit` for one repository: the commit step when the path is a
working copy, nothing otherwise (the command prints no messages). -/
def commitStepCmd (dry : Bool) (e : RepoEnv) : StepOut :=
  if isRepoB e then { calls := probeCalls e ++ commitRepoCalls dry e, msgs := [] }
  else { calls := probeCalls e, msgs := [] }

/-- `GitCat.install` for one repository.  When the directory exists:
either report it already exists (the source passes the formatted text as
the first, `rep`, argument of `rep_message`) or initialise, add the
remote, fetch and check out.  When it does not exist: report installing
and — unless dry-run — clone.  Afterwards, unless dry-run, re-probe and
warn when the result is still not a working copy. -/
def installStep (dry : Bool) (pfx remote rep : List Char) (e : RepoEnv) : StepOut :=
  let dire := expandPath pfx rep
  let mainCalls : List GitCall :=
    if e.dirExists then
      if e.gitDirExists then []
      else
        [{ cmd := "init".data, opts := [] },
         { cmd := "remote add origin ".data ++ remote, opts := [] },
         { cmd := "fetch origin".data, opts := [] },
         { cmd := "checkout -b master --track origin/master".data, opts := [] }]
    else
      if dry then []
      else [{ cmd := cloneChars, opts := "--quiet ".data ++ remote ++ ' ' :: basename dire }]
  let mainMsgs : List Emit :=
    if e.dirExists then
      if e.gitDirExists then
        [Emit.repMsg ("git repository ".data ++ dire ++ " already exists".data) [] true]
      else []
    else
      Emit.repMsg rep "installing".data true ::
        (if !dry && e.cloneOk then [Emit.plainMsg " - done!".data] else [])
  let postCalls : List GitCall :=
    if dry then [] else (if e.dirExistsAfter then [probeCall] else [])
  let postMsgs : List Emit :=
    if dry then []
    else if e.dirExistsAfter && (e.revParseOk2 && occurs trueChars e.revParseOut2) then []
    else [Emit.repMsg rep "not a git repository!?".data false]
  { calls := mainCalls ++ postCalls, msgs := mainMsgs ++ postMsgs }

/-- `GitCat.fetch` for one repository. -/
def fetchStep (optsF rep : List Char) (e : RepoEnv) : StepOut :=
  if isRepoB e then
    { calls := probeCalls e ++ [{ cmd := "fetch".data, opts := optsF }]
      msgs :=
        if e.fetchOk then
          if e.fetchOut = [] then [Emit.repMsg rep "already up to date".data true]
          else [Emit.repMsg rep e.fetchOut true]
        else [] }
  else { calls := probeCalls e, msgs := [Emit.repMsg rep "not on system".data true] }

def compressingChars : List Char := "Compressing".data

/-- `GitCat.pull` for one repository: like fetch, but output lines
containing `'Compressing'` are filtered out and a missing directory is
reported as `repository not installed`. -/
def pullStep (optsL rep : List Char) (e : RepoEnv) : StepOut :=
  if isRepoB e then
    { calls := probeCalls e ++ [{ cmd := "pull".data, opts := optsL }]
      msgs :=
        if e.pullOk then
          if e.pullOut = [] then [Emit.repMsg rep "already up to date".data true]
          else
            [Emit.repMsg rep
              ("pulling\n".data ++
                joinNl ((splitNl [] e.pullOut).filter (fun l => !(occurs compressingChars l))))
              false]
        else [] }
  else { calls := probeCalls e, msgs := [Emit.repMsg rep "repository not installed".data true] }

/-- Python `s[s.index('\n'):]`: the text from the first `'\n'` on,
inclusive. -/
def fromFirstNl (s : List Char) : List Char := s.dropWhile (fun c => !(c = '\n'))

/-- `GitCat.branch` for one repository: single-line output reports
`already up to date`; otherwise everything from the first newline on is
shown. -/
def branchStep (optsB rep : List Char) (e : RepoEnv) : StepOut :=
  if isRepoB e then
    { calls := probeCalls e ++ [{ cmd := "branch".data, opts := optsB }]
      msgs :=
        if e.branchOk then
          if !(e.branchOut.contains '\n') then [Emit.repMsg rep "already up to date".data true]
          else [Emit.repMsg rep (fromFirstNl e.branchOut) true]
        else [] }
  else { calls := probeCalls e, msgs := [Emit.repMsg rep "not on system".data true] }

/-- `GitCat.status` for one repository: optionally update remotes, run the
status query, munge its output (drop the branch header line, or blank the
`'  ##'`-only output), run the shortstat diff, and combine the
ahead/behind clause with the changed-files clause. -/
def statusStep (localFlag : Bool) (optsS rep : List Char) (e : RepoEnv) : StepOut :=
  if isRepoB e then
    let ruCalls : List GitCall :=
      if localFlag then [] else [{ cmd := "remote".data, opts := "update".data }]
    if localFlag || e.remoteUpdateOk then
      if e.statusOk then
        let changes := match e.aheadBehind with | none => [] | some g => g
        let stOut :=
          if e.statusOut.contains '\n' then (fromFirstNl e.statusOut).drop 1
          else if "  ##".data.isPrefixOf e.statusOut then [] else e.statusOut
        let changed0 :=
          if e.diffStatOk then
            match e.filesChanged with
            | none => []
            | some g => "uncommitted changes in ".data ++ g
          else []
        let changed :=
          if !(changes = []) then
            (if changed0 = [] then changes else changed0 ++ ", ".data ++ changes)
          else changed0
        { calls := probeCalls e ++ ruCalls ++
            [{ cmd := "status".data, opts := optsS },
             { cmd := "diff".data, opts := "--shortstat --no-color".data }]
          msgs :=
            if !(stOut = []) then [Emit.repMsg rep (changed ++ '\n' :: stOut) false]
            else if !(changed = []) then [Emit.repMsg rep changed false]
            else [Emit.repMsg rep "up to date".data true] }
      else
        { calls := probeCalls e ++ ruCalls ++ [{ cmd := "status".data, opts := optsS }]
          msgs := [] }
    else { calls := probeCalls e ++ ruCalls, msgs := [] }
  else { calls := probeCalls e, msgs := [Emit.repMsg rep "not on system".data true] }

/-- The git call issued per repository by `GitCat.diff`: the source reads
`Git(rep, 'diff' 'options')` — adjacent Python string literals
concatenate, so the subcommand is the literal `diffoptions` and the
computed option string (ending in `' HEAD'`) is never passed; the options
argument takes its default `''`. -/
def diffCmdCall : GitCall := { cmd := "diffoptions".data, opts := [] }

/-- `GitCat.diff` for one repository (no message for a missing
directory). -/
def diffStepCmd (rep : List Char) (e : RepoEnv) : StepOut :=
  if isRepoB e then
    { calls := probeCalls e ++ [diffCmdCall]
      msgs :=
        if e.diffOk then
          if !(e.diffOut = []) then [Emit.repMsg rep e.diffOut false]
          else [Emit.repMsg rep "up to date".data true]
        else [] }
  else { calls := probeCalls e, msgs := [] }

/-- One line of `GitCat.list_catalogue` with `listing=False`, as produced
by the `ls` command: the separator is `'='` when the expanded path is a
working copy and `'!'` otherwise. -/
def lsStep (w : Nat) (rep remote : List Char) (e : RepoEnv) : StepOut :=
  { calls := probeCalls e
    msgs := [Emit.plainMsg
      (padTo w rep ++ ' ' :: (if isRepoB e then '=' else '!') :: ' ' :: remote)] }

/- ------------------------------------------------------------------ -/
/- Multi-repository loops and fatal errors                            -/
/- ------------------------------------------------------------------ -/

/-- The multi-repository commands of `GitCat` (those that iterate over
`self.repositories()`). -/
inductive CmdK
  | fetchK
  | pullK
  | pushK
  | statusK
  | branchK
  | diffK
  | commitK
  | installK
  | lsK
deriving DecidableEq

/-- The per-invocation inputs of the orchestrator that are fixed before
the loop starts: the global toggles and the processed option string of
each command. -/
structure RunParams where
  dry : Bool
  localFlag : Bool
  pfx : List Char
  optsFetch : List Char
  optsPull : List Char
  optsPush : List Char
  optsStatus : List Char
  optsBranch : List Char
  maxw : Nat

/-- A Python-level failure that would abort the whole run: `keyErr` is an
uncaught `KeyError` from a catalogue subscript. -/
inductive Fatal
  | keyErr
deriving DecidableEq

/-- Python `self.catalogue[rep]` as a lookup on the association list. -/
def catLookup (cat : List (List Char × List Char)) (k : List Char) : Option (List Char) :=
  match cat with
  | [] => none
  | p :: rest => if p.1 == k then some p.2 else catLookup rest k

/-- The body of one iteration of a multi-repository command.  Only the
`install` and `ls` bodies subscript the catalogue (`self.catalogue[rep]`),
which raises `KeyError` — the propagated, run-aborting kind of failure —
when the key is absent; in the source the keys always come from
`self.repositories()`, a sub-selection of the catalogue keys, so the error
branch is unreachable there.  No iteration body calls `error_message`. -/
def stepOf (k : CmdK) (P : RunParams) (cat : List (List Char × List Char))
    (rep : List Char) (e : RepoEnv) : Except Fatal StepOut :=
  match k with
  | CmdK.fetchK => Except.ok (fetchStep P.optsFetch rep e)
  | CmdK.pullK => Except.ok (pullStep P.optsPull rep e)
  | CmdK.pushK => Except.ok (pushStep P.dry P.optsPush rep e)
  | CmdK.statusK => Except.ok (statusStep P.localFlag P.optsStatus rep e)
  | CmdK.branchK => Except.ok (branchStep P.optsBranch rep e)
  | CmdK.diffK => Except.ok (diffStepCmd rep e)
  | CmdK.commitK => Except.ok (commitStepCmd P.dry e)
  | CmdK.installK =>
    match catLookup cat rep with
    | some remote => Except.ok (installStep P.dry P.pfx remote rep e)
    | none => Except.error Fatal.keyErr
  | CmdK.lsK =>
    match catLookup cat rep with
    | some remote => Except.ok (lsStep P.maxw rep remote e)
    | none => Except.error Fatal.keyErr

/-- The per-command loop over the selected keys: each key is processed in
order with its own oracle; a Python-level exception would abort the rest
of the loop (error propagation), everything else continues. -/
def runCmd (k : CmdK) (P : RunParams) (cat : List (List Char × List Char))
    (sel : List (List Char)) (envf : List Char → RepoEnv) : Except Fatal (List StepOut) :=
  match sel with
  | [] => Except.ok []
  | r :: rest =>
    match stepOf k P cat r (envf r) with
    | Except.ok out =>
      match runCmd k P cat rest envf with
      | Except.ok outs => Except.ok (out :: outs)
      | Except.error e2 => Except.error e2
    | Except.error e2 => Except.error e2

/-- The process exit status of a run: `0` on normal completion, `1` when a
fatal error aborted it (`sys.exit(1)` or an uncaught exception). -/
def exitCode {α : Type} : Except Fatal α → Nat
  | Except.ok _ => 0
  | Except.error _ => 1

/-- A git call that clones: the `clone` call site of `GitCat.install`. -/
def isClone (g : GitCall) : Bool := g.cmd == cloneChars

/-- A git call that performs a real (non-porcelain) commit. -/
def isRealCommit (g : GitCall) : Bool :=
  g.cmd == commitChars && !(occurs porcelainChars g.opts)

/-- A git call that performs a real (non-dry-run) push. -/
def isRealPush (g : GitCall) : Bool :=
  g.cmd == pushChars && !(occurs dryRunChars g.opts)

/-- A real mutating action in the sense of the do-no-harm policy: a
clone, a real commit or a real push. -/
def realMutating (g : GitCall) : Bool := isClone g || isRealCommit g || isRealPush g

/- ------------------------------------------------------------------ -/
/- GitCat.remove and GitCat.repositories                              -/
/- ------------------------------------------------------------------ -/

/-- Python exceptions that propagate out of gitcat uncaught. -/
inductive PyExc
  | nameError
  | reError
deriving DecidableEq

/-- How an invocation of a gitcat command can fail: via the one-line
`error_message` diagnostic followed by `sys.exit(1)`, or via an uncaught
Python exception (interpreter traceback, exit status 1). -/
inductive RunErr
  | fatalMsg (msg : List Char)
  | exc (e : PyExc)
deriving DecidableEq

/-- The directory-argument resolution shared by `add` and `remove`:
`short_path` of the explicit directory argument or of the current working
directory, then `expand_path`. -/
def resolveDirectory (pfx : List Char) (gitDirectory : Option (List Char))
    (cwd : List Char) : List Char :=
  match gitDirectory with
  | none => expandPath pfx (shortPath pfx cwd)
  | some d => expandPath pfx (shortPath pfx d)

/-- Embedding of `GitCat.remove`: after resolving the directory, the
source evaluates `rep in self.catalogue` — but no local, enclosing,
global or builtin binding of the name `rep` exists at that point, so
every invocation raises `NameError` before any catalogue check, deletion
or save can happen. -/
def removeCmd (pfx : List Char) (gitDirectory : Option (List Char)) (cwd : List Char)
    (_cat : List (List Char × List Char)) : Except RunErr (List (List Char × List Char)) :=
  let _dire := resolveDirectory pfx gitDirectory cwd
  Except.error (RunErr.exc PyExc.nameError)

/-- Embedding of `GitCat.repositories`: without a filter option all
catalogue keys are returned; with one, `re.compile` runs on the pattern —
its result is passed in as `compiled`, with `Except.error ()` standing
for the `re.error` raised on an invalid pattern, for which the source has
no handler, and `Except.ok search` for a compiled pattern's substring
`search` predicate — and the keys are filtered by `search`. -/
def repositoriesSelect (hasFilter : Bool) (compiled : Except Unit (List Char → Bool))
    (keys : List (List Char)) : Except RunErr (List (List Char)) :=
  if hasFilter then
    match compiled with
    | Except.error _ => Except.error (RunErr.exc PyExc.reError)
    | Except.ok search => Except.ok (keys.filter search)
  else Except.ok keys

/-- Discriminator: did a run end through the one-line `error_message`
path? -/
def isFatalMsg : Except RunErr (List (List Char)) → Bool
  | Except.error (RunErr.fatalMsg _) => true
  | _ => false

/-- Discriminator: did a run end through an uncaught Python exception? -/
def isUncaughtExc : Except RunErr (List (List Char)) → Bool
  | Except.error (RunErr.exc _) => true
  | _ => false



/-- The keys of the entry lines of a catalogue file, in order: for every
line containing `" = "`, the stripped first fragment of its split. -/
def entryKeys (lines : List (List Char)) : List (List Char) :=
  (lines.filter (fun l => occurs sepChars l)).map (fun l => pystrip ((splitSep [] l).headD []))

/-- The process exit status of a catalogue load: `0` on success, `1` when
it aborts (`error_message` exits with status 1; an uncaught exception also
ends the interpreter with status 1). -/
def loadExit : Except LoadErr CatState → Nat
  | Except.ok _ => 0
  | Except.error _ => 1

/-- The concrete catalogue instantiating the amended C1 round trip. -/
def c1cat : List (List Char × List Char) :=
  [("Code/Prog1".data, "git@host:org/prog1.git".data),
   ("Code/Prog2".data, "git@host:org/p2.git".data)]

/-- The concrete catalogue instantiating C10. -/
def c10cat : List (List Char × List Char) := [("A".data, "r1".data)]


/-- A concrete repository oracle: an existing working copy with changed
files, whose git calls all succeed and whose dry-run push does not report
`[up to date]`. -/
def envPush : RepoEnv :=
  { dirExists := true, gitDirExists := true,
    revParseOk := true, revParseOut := "  true".data,
    diffIndexOk := true, diffIndexOut := "  M file.txt".data,
    commitOk := true, commitOut := "  committed".data,
    pushDryOk := true, pushDryOut := "  To host".data,
    pushRealOk := true, pushRealOut := "  To host Done".data,
    fetchOk := true, fetchOut := [],
    pullOk := true, pullOut := [],
    branchOk := true, branchOut := [],
    remoteUpdateOk := true, statusOk := true, statusOut := [],
    aheadBehind := none, diffStatOk := true, filesChanged := none,
    diffOk := true, diffOut := [],
    cloneOk := true, dirExistsAfter := true,
    revParseOk2 := true, revParseOut2 := "  true".data }

/-- A concrete repository oracle: an existing working copy on which the
diff-command invocation fails, as the invalid subcommand `diffoptions`
does with the real tool. -/
def e7 : RepoEnv :=
  { envPush with diffOk := false, diffIndexOut := [] }


/-- Concrete run parameters: the default toggles and the processed option
strings of the source's commands. -/
def P0 : RunParams :=
  { dry := false, localFlag := false, pfx := "/home/u".data,
    optsFetch := "-q --progress".data, optsPull := "-q --progress".data,
    optsPush := "--porcelain --follow-tags".data,
    optsStatus := "--porcelain --short --branch".data,
    optsBranch := "--verbose".data, maxw := 11 }

/-- A concrete one-entry catalogue for the loop theorems. -/
def c3cat : List (List Char × List Char) := [("Code/Prog1".data, "git@host:p1.git".data)]

/-- A concrete selection of keys for the loop theorems. -/
def c3sel : List (List Char) := ["Code/Prog1".data]

/-- A concrete per-key oracle assignment for the loop theorems. -/
def c3envf : List Char → RepoEnv := fun _ => envPush

/- ------------------------------------------------------------------ -/
/- Lemmas on the string primitives                                    -/
/- ------------------------------------------------------------------ -/

lemma occurs_nil (pat : List Char) : occurs pat [] = pat.isPrefixOf [] := rfl

lemma occurs_cons (pat : List Char) (c : Char) (s : List Char) :
    occurs pat (c :: s) = (pat.isPrefixOf (c :: s) || occurs pat s) := rfl

lemma sep_as_cons : sepChars = ' ' :: '=' :: ' ' :: [] := rfl

lemma sep_isPrefixOf_one (c : Char) : sepChars.isPrefixOf [c] = false := by
  rw [sep_as_cons, List.isPrefixOf_cons₂, List.isPrefixOf_cons_nil, Bool.and_false]

lemma sep_isPrefixOf_two (c d : Char) : sepChars.isPrefixOf [c, d] = false := by
  rw [sep_as_cons, List.isPrefixOf_cons₂, List.isPrefixOf_cons₂, List.isPrefixOf_cons_nil,
    Bool.and_false, Bool.and_false]

lemma sep_isPrefixOf_cons3 (c d e : Char) (u : List Char) :
    sepChars.isPrefixOf (c :: d :: e :: u) = ((' ' == c) && (('=' == d) && (' ' == e))) := by
  rw [sep_as_cons, List.isPrefixOf_cons₂, List.isPrefixOf_cons₂, List.isPrefixOf_cons₂,
    List.isPrefixOf_nil_left, Bool.and_true]

lemma isPrefixOf_append_self (l t : List Char) : l.isPrefixOf (l ++ t) = true := by
  induction l with
  | nil => exact List.isPrefixOf_nil_left
  | cons c cs ih =>
    rw [List.cons_append, List.isPrefixOf_cons₂, ih, Bool.and_true, beq_self_eq_true]

lemma occurs_append_right (pat a b : List Char) (h : occurs pat b = true) :
    occurs pat (a ++ b) = true := by
  induction a with
  | nil => simpa using h
  | cons c cs ih =>
    rw [List.cons_append, occurs_cons, ih, Bool.or_true]

lemma occurs_sep_mid (a b : List Char) : occurs sepChars (a ++ sepChars ++ b) = true := by
  induction a with
  | nil =>
    rw [List.nil_append]
    have h1 : sepChars.isPrefixOf (sepChars ++ b) = true := isPrefixOf_append_self _ _
    have h2 : sepChars ++ b = ' ' :: ('=' :: ' ' :: b) := rfl
    rw [h2] at h1 ⊢
    rw [occurs_cons, h1, Bool.true_or]
  | cons c cs ih =>
    have h3 : (c :: cs) ++ sepChars ++ b = c :: (cs ++ sepChars ++ b) := by simp
    rw [h3, occurs_cons, ih, Bool.or_true]

lemma not_isPrefixOf_of_not_occurs (pat s : List Char) (h : occurs pat s = false) :
    pat.isPrefixOf s = false := by
  cases s with
  | nil => rw [occurs_nil] at h; exact h
  | cons c cs =>
    rw [occurs_cons, Bool.or_eq_false_iff] at h
    exact h.1

lemma occurs_tail (pat : List Char) (c : Char) (s : List Char)
    (h : occurs pat (c :: s) = false) : occurs pat s = false := by
  rw [occurs_cons, Bool.or_eq_false_iff] at h
  exact h.2

lemma splitSep_nil (acc : List Char) : splitSep acc [] = [acc.reverse] := rfl

lemma splitSep_cons (acc : List Char) (c : Char) (s : List Char) :
    splitSep acc (c :: s) =
      if sepChars.isPrefixOf (c :: s) then
        (match s with
         | _ :: _ :: s2 => acc.reverse :: splitSep [] s2
         | _ => [acc.reverse])
      else splitSep (c :: acc) s := by
  cases s with
  | nil => rfl
  | cons d t =>
    cases t with
    | nil => rfl
    | cons e u => rfl

lemma splitSep_no_sep (s : List Char) (h : occurs sepChars s = false) (acc : List Char) :
    splitSep acc s = [acc.reverse ++ s] := by
  induction s generalizing acc with
  | nil => rw [splitSep_nil, List.append_nil]
  | cons c cs ih =>
    have h1 : sepChars.isPrefixOf (c :: cs) = false := not_isPrefixOf_of_not_occurs _ _ h
    have h2 : occurs sepChars cs = false := occurs_tail _ _ _ h
    rw [splitSep_cons, h1]
    simp only [Bool.false_eq_true, if_false, ih h2, List.reverse_cons, List.append_assoc,
      List.singleton_append]

lemma sep_isPrefixOf_shape (c : Char) (s : List Char)
    (h : sepChars.isPrefixOf (c :: s) = true) :
    c = ' ' ∧ ∃ s2, s = '=' :: ' ' :: s2 := by
  cases s with
  | nil => rw [sep_isPrefixOf_one] at h; exact absurd h (by decide)
  | cons d t =>
    cases t with
    | nil => rw [sep_isPrefixOf_two] at h; exact absurd h (by decide)
    | cons e u =>
      rw [sep_isPrefixOf_cons3] at h
      simp only [Bool.and_eq_true, beq_iff_eq] at h
      exact ⟨h.1.symm, u, by rw [h.2.1.symm, h.2.2.symm]⟩

lemma prefixOf_boundary (c : Char) (a b : List Char) :
    sepChars.isPrefixOf (c :: (a ++ sepChars ++ b)) = sepChars.isPrefixOf (c :: (a ++ [' '])) := by
  cases a with
  | nil =>
    rw [List.nil_append, List.nil_append]
    have h1 : sepChars ++ b = ' ' :: '=' :: ' ' :: b := rfl
    rw [h1, sep_isPrefixOf_cons3, sep_isPrefixOf_two]
    simp
  | cons x t =>
    cases t with
    | nil =>
      have h1 : ([x] ++ sepChars ++ b) = x :: ' ' :: '=' :: ' ' :: b := rfl
      have h2 : ([x] ++ [' ']) = x :: ' ' :: [] := rfl
      rw [h1, h2, sep_isPrefixOf_cons3, sep_isPrefixOf_cons3]
    | cons y u =>
      have h1 : ((x :: y :: u) ++ sepChars ++ b) = x :: y :: (u ++ sepChars ++ b) := by simp
      have h2 : ((x :: y :: u) ++ [' ']) = x :: y :: (u ++ [' ']) := by simp
      rw [h1, h2, sep_isPrefixOf_cons3, sep_isPrefixOf_cons3]

lemma splitSep_at_sep (a : List Char) (h : occurs sepChars (a ++ [' ']) = false)
    (acc b : List Char) :
    splitSep acc (a ++ sepChars ++ b) = (acc.reverse ++ a) :: splitSep [] b := by
  induction a generalizing acc with
  | nil =>
    have h1 : ([] : List Char) ++ sepChars ++ b = ' ' :: ('=' :: ' ' :: b) := rfl
    rw [h1, splitSep_cons]
    have h2 : sepChars.isPrefixOf (' ' :: ('=' :: ' ' :: b)) = true := by
      rw [sep_isPrefixOf_cons3]; simp
    rw [h2]
    simp
  | cons c t ih =>
    have h1 : (c :: t) ++ sepChars ++ b = c :: (t ++ sepChars ++ b) := by simp
    have h2 : sepChars.isPrefixOf (c :: (t ++ sepChars ++ b)) = false := by
      rw [prefixOf_boundary]
      have h4 : c :: (t ++ [' ']) = (c :: t) ++ [' '] := rfl
      rw [h4]
      exact not_isPrefixOf_of_not_occurs _ _ h
    have h3 : occurs sepChars (t ++ [' ']) = false := by
      have h5 : occurs sepChars ((c :: t) ++ [' ']) = false := h
      rw [List.cons_append] at h5
      exact occurs_tail _ _ _ h5
    rw [h1, splitSep_cons, h2]
    simp only [Bool.false_eq_true, if_false, ih h3]
    simp

lemma sep_isPrefixOf_spaces (n : Nat) :
    sepChars.isPrefixOf (List.replicate n ' ') = false := by
  rw [List.isPrefixOf_replicate]
  have h1 : sepChars.all (fun c => c == ' ') = false := by decide
  rw [h1, Bool.and_false]

lemma occurs_spaces (n : Nat) : occurs sepChars (List.replicate n ' ') = false := by
  induction n with
  | zero => decide
  | succ m ih =>
    rw [List.replicate_succ, occurs_cons, ← List.replicate_succ, sep_isPrefixOf_spaces, ih,
      Bool.or_false]

lemma prefixOf_spaces_absorb (x : List Char) (n : Nat) :
    sepChars.isPrefixOf (x ++ List.replicate n ' ' ++ [' ']) =
      sepChars.isPrefixOf (x ++ [' ']) := by
  have hrep : ∀ m : Nat, List.replicate m ' ' ++ [' '] = List.replicate (m + 1) ' ' := by
    intro m
    rw [← List.replicate_succ']
  cases x with
  | nil =>
    rw [List.nil_append, List.nil_append, hrep, sep_isPrefixOf_spaces]
    have h0 : [' '] = List.replicate 1 ' ' := rfl
    rw [h0, sep_isPrefixOf_spaces]
  | cons c t =>
    cases t with
    | nil =>
      have h1 : [c] ++ List.replicate n ' ' ++ [' '] = c :: (List.replicate n ' ' ++ [' ']) := by
        simp
      have h2 : ([c] ++ [' '] : List Char) = [c, ' '] := rfl
      rw [h1, h2, hrep]
      cases n with
      | zero => rfl
      | succ m =>
        have h3 : List.replicate (m + 1 + 1) ' ' = ' ' :: ' ' :: List.replicate m ' ' := rfl
        rw [h3, sep_isPrefixOf_cons3, sep_isPrefixOf_two]
        have h4 : (('=' == ' ') : Bool) = false := by decide
        rw [h4]
        simp
    | cons d u =>
      cases u with
      | nil =>
        cases n with
        | zero => rfl
        | succ m =>
          have h1 : [c, d] ++ List.replicate (m + 1) ' ' ++ [' '] =
              c :: d :: ' ' :: (List.replicate m ' ' ++ [' ']) := by
            rw [List.replicate_succ]; simp
          have h2 : [c, d] ++ [' '] = c :: d :: ' ' :: [] := rfl
          rw [h1, h2, sep_isPrefixOf_cons3, sep_isPrefixOf_cons3]
      | cons e v =>
        have h1 : (c :: d :: e :: v) ++ List.replicate n ' ' ++ [' '] =
            c :: d :: e :: (v ++ List.replicate n ' ' ++ [' ']) := by simp
        have h2 : (c :: d :: e :: v) ++ [' '] = c :: d :: e :: (v ++ [' ']) := by simp
        rw [h1, h2, sep_isPrefixOf_cons3, sep_isPrefixOf_cons3]

lemma occurs_spaces_absorb (k : List Char) (n : Nat)
    (h : occurs sepChars (k ++ [' ']) = false) :
    occurs sepChars (k ++ List.replicate n ' ' ++ [' ']) = false := by
  induction k with
  | nil =>
    rw [List.nil_append] at h ⊢
    rw [← List.replicate_succ', occurs_spaces]
  | cons c t ih =>
    rw [List.cons_append] at h
    have h1 : sepChars.isPrefixOf ((c :: t) ++ [' ']) = false :=
      not_isPrefixOf_of_not_occurs _ _ h
    have h2 : occurs sepChars (t ++ [' ']) = false := occurs_tail _ _ _ h
    have h3 : (c :: t) ++ List.replicate n ' ' ++ [' '] =
        c :: (t ++ List.replicate n ' ' ++ [' ']) := by simp
    rw [h3, occurs_cons, ih h2, Bool.or_false]
    have h6 : c :: (t ++ List.replicate n ' ' ++ [' ']) =
        (c :: t) ++ List.replicate n ' ' ++ [' '] := by simp
    rw [h6, prefixOf_spaces_absorb, h1]

lemma splitNl_nil (acc : List Char) : splitNl acc [] = [acc.reverse] := rfl

lemma splitNl_cons (acc : List Char) (c : Char) (s : List Char) :
    splitNl acc (c :: s) =
      if c = '\n' then acc.reverse :: splitNl [] s else splitNl (c :: acc) s := rfl

lemma splitNl_no_nl (a : List Char) (h : '\n' ∉ a) (acc : List Char) :
    splitNl acc a = [acc.reverse ++ a] := by
  induction a generalizing acc with
  | nil => rw [splitNl_nil, List.append_nil]
  | cons c t ih =>
    have hc : ¬(c = '\n') := fun hcc => h (hcc ▸ List.mem_cons_self c t)
    have ht : '\n' ∉ t := fun htt => h (List.mem_cons_of_mem c htt)
    rw [splitNl_cons, if_neg hc, ih ht]
    simp

lemma splitNl_break (a : List Char) (h : '\n' ∉ a) (acc rest : List Char) :
    splitNl acc (a ++ '\n' :: rest) = (acc.reverse ++ a) :: splitNl [] rest := by
  induction a generalizing acc with
  | nil =>
    rw [List.nil_append, splitNl_cons, if_pos rfl, List.append_nil]
  | cons c t ih =>
    have hc : ¬(c = '\n') := fun hcc => h (hcc ▸ List.mem_cons_self c t)
    have ht : '\n' ∉ t := fun htt => h (List.mem_cons_of_mem c htt)
    rw [List.cons_append, splitNl_cons, if_neg hc, ih ht]
    simp

lemma dropWhile_spaces (n : Nat) (y : List Char) :
    (List.replicate n ' ' ++ y).dropWhile isPySpace = y.dropWhile isPySpace := by
  induction n with
  | zero => rfl
  | succ m ih =>
    rw [List.replicate_succ, List.cons_append, List.dropWhile_cons]
    have h1 : isPySpace ' ' = true := by decide
    rw [h1, if_pos rfl]
    exact ih

lemma stripRight_spaces (x : List Char) (n : Nat) :
    stripRight (x ++ List.replicate n ' ') = stripRight x := by
  unfold stripRight
  rw [List.reverse_append, List.reverse_replicate, dropWhile_spaces]

lemma pystrip_spaces (x : List Char) (n : Nat) :
    pystrip (x ++ List.replicate n ' ') = pystrip x := by
  unfold pystrip
  rw [stripRight_spaces]

lemma splitSep_length_pos (s acc : List Char) : 0 < (splitSep acc s).length := by
  induction s generalizing acc with
  | nil => rw [splitSep_nil]; simp
  | cons c t ih =>
    rw [splitSep_cons]
    by_cases hp : sepChars.isPrefixOf (c :: t) = true
    · rw [if_pos hp]
      obtain ⟨-, s2, hs2⟩ := sep_isPrefixOf_shape c t hp
      subst hs2
      simp
    · rw [if_neg (by simpa using hp)]
      exact ih _

lemma splitSep_length_acc (s : List Char) (acc acc2 : List Char) :
    (splitSep acc s).length = (splitSep acc2 s).length := by
  induction s generalizing acc acc2 with
  | nil => rfl
  | cons c t ih =>
    rw [splitSep_cons, splitSep_cons]
    by_cases hp : sepChars.isPrefixOf (c :: t) = true
    · rw [if_pos hp, if_pos hp]
      obtain ⟨-, s2, hs2⟩ := sep_isPrefixOf_shape c t hp
      subst hs2
      simp
    · rw [if_neg (by simpa using hp), if_neg (by simpa using hp)]
      exact ih _ _

lemma splitSep_length_ge_two (s : List Char) (h : occurs sepChars s = true) (acc : List Char) :
    2 ≤ (splitSep acc s).length := by
  induction s generalizing acc with
  | nil => rw [occurs_nil] at h; exact absurd h (by decide)
  | cons c t ih =>
    rw [splitSep_cons]
    by_cases hp : sepChars.isPrefixOf (c :: t) = true
    · rw [if_pos hp]
      obtain ⟨-, s2, hs2⟩ := sep_isPrefixOf_shape c t hp
      subst hs2
      have := splitSep_length_pos s2 ([] : List Char)
      simp
      omega
    · rw [if_neg (by simpa using hp)]
      rw [occurs_cons] at h
      have ht : occurs sepChars t = true := by
        cases hoc : occurs sepChars t with
        | true => rfl
        | false =>
          rw [hoc, Bool.or_false] at h
          exact absurd h (by simp [hp])
      exact ih ht _

lemma splitSep_singleton_iff (s : List Char) :
    occurs sepChars s = false ↔ splitSep [] s = [s] := by
  constructor
  · intro h
    rw [splitSep_no_sep s h []]
    rfl
  · intro h
    cases hoc : occurs sepChars s with
    | false => rfl
    | true =>
      have h2 := splitSep_length_ge_two s hoc []
      rw [h] at h2
      simp at h2

/- ------------------------------------------------------------------ -/
/- Lemmas on catalogue load/save                                      -/
/- ------------------------------------------------------------------ -/

lemma loadLines_nil (st : CatState) : loadLines st [] = Except.ok st := rfl

lemma loadLines_cons_ok (st st2 : CatState) (l : List Char) (ls : List (List Char))
    (h : loadLine st l = Except.ok st2) :
    loadLines st (l :: ls) = loadLines st2 ls := by
  simp only [loadLines]
  rw [h]

lemma loadLines_cons_err (st : CatState) (l : List Char) (ls : List (List Char))
    (e : LoadErr) (h : loadLine st l = Except.error e) :
    loadLines st (l :: ls) = Except.error e := by
  simp only [loadLines]
  rw [h]

lemma loadLine_skip (st : CatState) (l : List Char) (h : occurs sepChars l = false) :
    loadLine st l = Except.ok st := by
  unfold loadLine
  rw [h]
  simp

lemma loadLine_entry (st : CatState) (a r : List Char)
    (ha : occurs sepChars (a ++ [' ']) = false) (hr : occurs sepChars r = false)
    (hdup : keyMem (pystrip a) st.cat = false) :
    loadLine st (a ++ sepChars ++ r) =
      Except.ok { st with cat := st.cat ++ [(pystrip a, pystrip r)] } := by
  have hocc : occurs sepChars (a ++ sepChars ++ r) = true := occurs_sep_mid a r
  have hsplit : splitSep [] (a ++ sepChars ++ r) = [a, r] := by
    rw [splitSep_at_sep a ha [] r, splitSep_no_sep r hr []]
    rfl
  unfold loadLine
  rw [hocc, hsplit]
  simp [hdup, prefixCheck]

lemma keyMem_eq_false (k : List Char) (cat : List (List Char × List Char)) :
    keyMem k cat = false ↔ ∀ p ∈ cat, ¬(p.1 = k) := by
  simp [keyMem]

lemma keyMem_append (k : List Char) (a b : List (List Char × List Char)) :
    keyMem k (a ++ b) = (keyMem k a || keyMem k b) := by
  simp [keyMem, List.any_append]

lemma loadLines_entry_block (w : Nat) (cat : List (List Char × List Char)) (st : CatState)
    (hk : ∀ p ∈ cat, pystrip p.1 = p.1 ∧ occurs sepChars (p.1 ++ [' ']) = false)
    (hr : ∀ p ∈ cat, pystrip p.2 = p.2 ∧ occurs sepChars p.2 = false)
    (hnodup : (cat.map Prod.fst).Nodup)
    (hfresh : ∀ p ∈ cat, keyMem p.1 st.cat = false) :
    loadLines st (cat.map (entryLine w) ++ [[]]) =
      Except.ok { st with cat := st.cat ++ cat } := by
  induction cat generalizing st with
  | nil =>
    rw [List.map_nil, List.nil_append,
      loadLines_cons_ok st st [] [] (loadLine_skip st [] (by decide)), loadLines_nil,
      List.append_nil]
  | cons p rest ih =>
    have hk1 := hk p (List.mem_cons_self p rest)
    have hr1 := hr p (List.mem_cons_self p rest)
    have hfresh1 := hfresh p (List.mem_cons_self p rest)
    have hentry : entryLine w p = (p.1 ++ List.replicate (w - p.1.length) ' ') ++ sepChars ++ p.2 := by
      unfold entryLine padTo
      rfl
    have ha : occurs sepChars ((p.1 ++ List.replicate (w - p.1.length) ' ') ++ [' ']) = false :=
      occurs_spaces_absorb p.1 (w - p.1.length) hk1.2
    have hstrip : pystrip (p.1 ++ List.replicate (w - p.1.length) ' ') = p.1 := by
      rw [pystrip_spaces, hk1.1]
    have hdup : keyMem (pystrip (p.1 ++ List.replicate (w - p.1.length) ' ')) st.cat = false := by
      rw [hstrip]
      exact hfresh1
    have hline := loadLine_entry st (p.1 ++ List.replicate (w - p.1.length) ' ') p.2 ha hr1.2 hdup
    rw [hstrip, hr1.1] at hline
    rw [List.map_cons, List.cons_append, loadLines_cons_ok _ _ _ _ (hentry ▸ hline)]
    have hnodup2 : (rest.map Prod.fst).Nodup := by
      rw [List.map_cons, List.nodup_cons] at hnodup
      exact hnodup.2
    have hne : ∀ q ∈ rest, ¬(q.1 = p.1) := by
      intro q hq hqe
      rw [List.map_cons, List.nodup_cons] at hnodup
      exact hnodup.1 (hqe ▸ List.mem_map_of_mem Prod.fst hq)
    have hfresh2 : ∀ q ∈ rest, keyMem q.1 (st.cat ++ [(p.1, p.2)]) = false := by
      intro q hq
      rw [keyMem_append, hfresh q (List.mem_cons_of_mem p hq), Bool.false_or]
      simp [keyMem]
      exact fun hqe => (hne q hq) hqe.symm
    rw [ih _ (fun q hq => hk q (List.mem_cons_of_mem p hq))
      (fun q hq => hr q (List.mem_cons_of_mem p hq)) hnodup2 hfresh2]
    simp

lemma nl_not_mem_entryLine (w : Nat) (q : List Char × List Char)
    (h1 : '\n' ∉ q.1) (h2 : '\n' ∉ q.2) : '\n' ∉ entryLine w q := by
  unfold entryLine padTo
  intro hm
  rcases List.mem_append.mp hm with hm1 | hm2
  · rcases List.mem_append.mp hm1 with hm3 | hm4
    · rcases List.mem_append.mp hm3 with hm5 | hm6
      · exact h1 hm5
      · exact absurd (List.eq_of_mem_replicate hm6) (by decide)
    · rcases List.mem_cons.mp hm4 with h | h
      · exact absurd h (by decide)
      · rcases List.mem_cons.mp h with h7 | h7
        · exact absurd h7 (by decide)
        · rcases List.mem_cons.mp h7 with h8 | h8
          · exact absurd h8 (by decide)
          · exact absurd h8 (by simp)
  · exact h2 hm2

lemma joinNl_one (l : List Char) : joinNl [l] = l := rfl

lemma joinNl_cons2 (l l2 : List Char) (ls : List (List Char)) :
    joinNl (l :: l2 :: ls) = l ++ '\n' :: joinNl (l2 :: ls) := rfl

lemma splitNl_join_entries (l : List Char) (ls : List (List Char))
    (h : ∀ x ∈ l :: ls, '\n' ∉ x) :
    splitNl [] (joinNl (l :: ls) ++ ['\n']) = (l :: ls) ++ [[]] := by
  induction ls generalizing l with
  | nil =>
    rw [joinNl_one, splitNl_break l (h l (List.mem_cons_self l [])) [] [], splitNl_nil]
    simp
  | cons l2 ls2 ih =>
    rw [joinNl_cons2]
    have hassoc : (l ++ '\n' :: joinNl (l2 :: ls2)) ++ ['\n'] =
        l ++ '\n' :: (joinNl (l2 :: ls2) ++ ['\n']) := by simp
    rw [hassoc, splitNl_break l (h l (List.mem_cons_self l (l2 :: ls2))) [] _,
      ih l2 (fun x hx => h x (List.mem_cons_of_mem _ hx))]
    simp

lemma load_after_header (cat : List (List Char × List Char)) (w : Nat) (st : CatState)
    (hk : ∀ p ∈ cat, pystrip p.1 = p.1 ∧ occurs sepChars (p.1 ++ [' ']) = false ∧ '\n' ∉ p.1)
    (hr : ∀ p ∈ cat, pystrip p.2 = p.2 ∧ occurs sepChars p.2 = false ∧ '\n' ∉ p.2)
    (hnodup : (cat.map Prod.fst).Nodup)
    (hfresh : ∀ p ∈ cat, keyMem p.1 st.cat = false) :
    loadLines st (splitNl [] (joinNl (cat.map (entryLine w)) ++ ['\n'])) =
      Except.ok { st with cat := st.cat ++ cat } := by
  cases cat with
  | nil =>
    rw [List.map_nil]
    have hsplit : splitNl [] (joinNl [] ++ ['\n']) = [[], []] := rfl
    rw [hsplit, loadLines_cons_ok st st [] [[]] (loadLine_skip st [] (by decide)),
      loadLines_cons_ok st st [] [] (loadLine_skip st [] (by decide)), loadLines_nil,
      List.append_nil]
  | cons p rest =>
    rw [List.map_cons]
    have hlines : ∀ x ∈ entryLine w p :: rest.map (entryLine w), '\n' ∉ x := by
      intro x hx
      rcases List.mem_cons.mp hx with h | h
      · subst h
        exact nl_not_mem_entryLine w p (hk p (List.mem_cons_self p rest)).2.2
          (hr p (List.mem_cons_self p rest)).2.2
      · obtain ⟨q, hq, hqe⟩ := List.mem_map.mp h
        subst hqe
        exact nl_not_mem_entryLine w q (hk q (List.mem_cons_of_mem p hq)).2.2
          (hr q (List.mem_cons_of_mem p hq)).2.2
    rw [splitNl_join_entries _ _ hlines]
    have hmap : entryLine w p :: rest.map (entryLine w) = (p :: rest).map (entryLine w) := rfl
    rw [show (entryLine w p :: rest.map (entryLine w)) ++ [[]] =
      ((p :: rest).map (entryLine w)) ++ [[]] from rfl]
    exact loadLines_entry_block w (p :: rest) st
      (fun q hq => ⟨(hk q hq).1, (hk q hq).2.1⟩)
      (fun q hq => ⟨(hr q hq).1, (hr q hq).2.1⟩) hnodup hfresh

/- ------------------------------------------------------------------ -/
/- C1: catalogue round-trip                                           -/
/- ------------------------------------------------------------------ -/

/-- C1 counterexample: the round-trip `load(save(C)) == C` fails as
stated.  The catalogue `{"a": "b = c"}` has unique, newline-free keys and
remotes, yet saving writes the line `a  = b = c`, whose load splits into
three parts on `" = "` and raises the uncaught `ValueError` of
`dire, rep = line.split(' = ')` instead of returning the catalogue. -/
theorem c1_round_trip_counterexample :
    loadFile (saveFile none [("a".data, "b = c".data)]) [] = Except.error LoadErr.unpack ∧
    loadFile (saveFile none [("a".data, "b = c".data)]) [] ≠
      Except.ok { cat := [("a".data, "b = c".data)], pfx := [] } :=
  ⟨rfl, fun h => Except.noConfusion h⟩

/-- C1 (amended): catalogue round-trip.  For every catalogue whose
directory keys are unique, whose keys and remotes contain no embedded
newline, are already stripped of surrounding whitespace and contain no
`" = "` separator (for keys, also together with the following padding
space), and with the default prefix (no settings line saved), loading the
file produced by saving the catalogue yields exactly the same catalogue,
entries and insertion order preserved, and leaves the prefix unchanged. -/
theorem c1_round_trip_amended (cat : List (List Char × List Char)) (pfx0 : List Char)
    (hk : ∀ p ∈ cat, pystrip p.1 = p.1 ∧ occurs sepChars (p.1 ++ [' ']) = false ∧ '\n' ∉ p.1)
    (hr : ∀ p ∈ cat, pystrip p.2 = p.2 ∧ occurs sepChars p.2 = false ∧ '\n' ∉ p.2)
    (hnodup : (cat.map Prod.fst).Nodup) :
    loadFile (saveFile none cat) pfx0 = Except.ok { cat := cat, pfx := pfx0 } := by
  unfold loadFile saveFile
  have hs : settingsText none = [] := rfl
  rw [hs, List.nil_append]
  have hH : '\n' ∉ headerChars := by decide
  rw [splitNl_break headerChars hH []
    ('\n' :: (joinNl (cat.map (entryLine (maxKey cat))) ++ ['\n'])), splitNl_cons, if_pos rfl]
  have e1 : ([] : List Char).reverse ++ headerChars = headerChars := by simp
  have e2 : ([] : List Char).reverse = [] := rfl
  rw [e1, e2, loadLines_cons_ok _ _ _ _ (loadLine_skip _ headerChars (by decide)),
    loadLines_cons_ok _ _ _ _ (loadLine_skip _ [] (by decide)),
    load_after_header cat (maxKey cat) { cat := [], pfx := pfx0 } hk hr hnodup
      (fun p hp => rfl)]
  simp

/-- Witness for the amended C1 round trip at a concrete two-entry
catalogue. -/
theorem c1_round_trip_amended_witness :
    ((∀ p ∈ c1cat, pystrip p.1 = p.1 ∧ occurs sepChars (p.1 ++ [' ']) = false ∧ '\n' ∉ p.1) ∧
     (∀ p ∈ c1cat, pystrip p.2 = p.2 ∧ occurs sepChars p.2 = false ∧ '\n' ∉ p.2) ∧
     (c1cat.map Prod.fst).Nodup) ∧
    loadFile (saveFile none c1cat) "/home/u".data =
      Except.ok { cat := c1cat, pfx := "/home/u".data } :=
  ⟨⟨by decide, by decide, by decide⟩,
    c1_round_trip_amended c1cat "/home/u".data (by decide) (by decide) (by decide)⟩

/- ------------------------------------------------------------------ -/
/- C10: the prefix-line check never fires                             -/
/- ------------------------------------------------------------------ -/

/-- C10: because `GitCat.read_catalogue` compares the bound method
`dire.lower` (not its call) with `'prefix'`, the prefix branch is never
taken: loading a catalogue line `prefix = <value>` inserts an ordinary
entry with directory key `prefix` and the stripped value as remote and
leaves the configured prefix unchanged; in particular a file saved with a
non-default prefix reloads with that spurious `prefix` entry prepended to
the catalogue, again with the in-memory prefix untouched. -/
theorem c10_prefix_line_entry (pfx0 v pr : List Char)
    (cat : List (List Char × List Char))
    (hv : occurs sepChars v = false)
    (hpr : pystrip pr = pr ∧ occurs sepChars pr = false ∧ '\n' ∉ pr)
    (hk : ∀ p ∈ cat, pystrip p.1 = p.1 ∧ occurs sepChars (p.1 ++ [' ']) = false ∧ '\n' ∉ p.1)
    (hr : ∀ p ∈ cat, pystrip p.2 = p.2 ∧ occurs sepChars p.2 = false ∧ '\n' ∉ p.2)
    (hnodup : (cat.map Prod.fst).Nodup)
    (hnp : prefixKeyChars ∉ cat.map Prod.fst) :
    loadLines { cat := [], pfx := pfx0 } [prefixKeyChars ++ sepChars ++ v] =
      Except.ok { cat := [(prefixKeyChars, pystrip v)], pfx := pfx0 } ∧
    loadFile (saveFile (some pr) cat) pfx0 =
      Except.ok { cat := (prefixKeyChars, pr) :: cat, pfx := pfx0 } := by
  have hpk : occurs sepChars (prefixKeyChars ++ [' ']) = false := by decide
  have hpkstrip : pystrip prefixKeyChars = prefixKeyChars := by decide
  constructor
  · have hline := loadLine_entry { cat := [], pfx := pfx0 } prefixKeyChars v hpk hv (by rfl)
    rw [hpkstrip] at hline
    rw [loadLines_cons_ok _ _ _ _ hline, loadLines_nil]
    simp
  · unfold loadFile saveFile
    have hs : settingsText (some pr) = (prefixKeyChars ++ sepChars ++ pr) ++ ['\n'] := by
      unfold settingsText
      simp
    rw [hs]
    have hshape : ((prefixKeyChars ++ sepChars ++ pr) ++ ['\n']) ++
        (joinNl (cat.map (entryLine (maxKey cat))) ++ ['\n']) =
        (prefixKeyChars ++ sepChars ++ pr) ++
          '\n' :: (joinNl (cat.map (entryLine (maxKey cat))) ++ ['\n']) := by
      simp
    rw [hshape]
    have hH : '\n' ∉ headerChars := by decide
    have hnlp : '\n' ∉ prefixKeyChars ++ sepChars ++ pr := by
      intro hm
      rcases List.mem_append.mp hm with h | h
      · rcases List.mem_append.mp h with h1 | h1
        · exact absurd h1 (by decide)
        · exact absurd h1 (by decide)
      · exact hpr.2.2 h
    rw [splitNl_break headerChars hH [] _, splitNl_cons, if_pos rfl,
      splitNl_break (prefixKeyChars ++ sepChars ++ pr) hnlp [] _]
    simp only [List.reverse_nil, List.nil_append]
    rw [loadLines_cons_ok _ _ _ _ (loadLine_skip _ headerChars (by decide)),
      loadLines_cons_ok _ _ _ _ (loadLine_skip _ [] (by decide))]
    have hline := loadLine_entry { cat := [], pfx := pfx0 } prefixKeyChars pr hpk hpr.2.1
      (by rfl)
    rw [hpkstrip, hpr.1] at hline
    rw [loadLines_cons_ok _ _ _ _ hline]
    rw [load_after_header cat (maxKey cat)
      { cat := ({ cat := [], pfx := pfx0 } : CatState).cat ++ [(prefixKeyChars, pr)],
        pfx := pfx0 } hk hr hnodup ?hfr]
    case hfr =>
      intro p hp
      show keyMem p.1 (([] : List (List Char × List Char)) ++ [(prefixKeyChars, pr)]) = false
      rw [List.nil_append]
      have hne : ¬(prefixKeyChars = p.1) := by
        intro he
        apply hnp
        rw [he]
        exact List.mem_map_of_mem Prod.fst hp
      simp [keyMem]
      exact hne
    simp

/-- Witness for C10 at a concrete prefix value and one-entry catalogue. -/
theorem c10_prefix_line_entry_witness :
    (occurs sepChars "/x/y".data = false ∧
     (pystrip "/srv/repos".data = "/srv/repos".data ∧
      occurs sepChars "/srv/repos".data = false ∧ '\n' ∉ "/srv/repos".data) ∧
     prefixKeyChars ∉ c10cat.map Prod.fst) ∧
    (loadLines { cat := [], pfx := "/home/u".data }
        [prefixKeyChars ++ sepChars ++ "/x/y".data] =
      Except.ok { cat := [(prefixKeyChars, pystrip "/x/y".data)], pfx := "/home/u".data } ∧
     loadFile (saveFile (some "/srv/repos".data) c10cat) "/home/u".data =
      Except.ok { cat := (prefixKeyChars, "/srv/repos".data) :: c10cat,
                  pfx := "/home/u".data }) :=
  ⟨⟨by decide, by decide, by decide⟩,
    c10_prefix_line_entry "/home/u".data "/x/y".data "/srv/repos".data c10cat
      (by decide) (by decide) (by decide) (by decide) (by decide) (by decide)⟩

/- ------------------------------------------------------------------ -/
/- C5: entry-line parsing                                             -/
/- ------------------------------------------------------------------ -/

/-- C5 counterexample: the claim that an entry line is split exactly once
on the *first* occurrence of `" = "` (so that a remote containing a
further `" = "` still parses) is false: `read_catalogue` splits on every
occurrence and unpacks into exactly two names, so the line `a = b = c`
raises the uncaught `ValueError` instead of producing the entry
`("a", "b = c")`. -/
theorem c5_split_once_counterexample :
    loadLines { cat := [], pfx := [] } ["a = b = c".data] = Except.error LoadErr.unpack ∧
    loadLines { cat := [], pfx := [] } ["a = b = c".data] ≠
      Except.ok { cat := [("a".data, "b = c".data)], pfx := [] } :=
  ⟨rfl, fun h => Except.noConfusion h⟩

/-- C5 (amended): a line is treated as a catalogue entry iff it contains
the literal substring `" = "`; an entry line is split on *every*
occurrence of that substring; when exactly two parts result they become
the directory and the remote, each trimmed of surrounding whitespace;
when more than two parts result the load fails with the uncaught
unpacking error; every line without the substring is ignored. -/
theorem c5_line_parsing_amended (pfx0 line : List Char) :
    (occurs sepChars line = false →
      splitSep [] line = [line] ∧
      loadLines { cat := [], pfx := pfx0 } [line] = Except.ok { cat := [], pfx := pfx0 }) ∧
    (∀ a r, splitSep [] line = [a, r] →
      loadLines { cat := [], pfx := pfx0 } [line] =
        Except.ok { cat := [(pystrip a, pystrip r)], pfx := pfx0 }) ∧
    (2 < (splitSep [] line).length →
      loadLines { cat := [], pfx := pfx0 } [line] = Except.error LoadErr.unpack) := by
  refine ⟨?ignored, ?entry, ?crash⟩
  case ignored =>
    intro hoc
    refine ⟨(splitSep_singleton_iff line).mp hoc, ?_⟩
    rw [loadLines_cons_ok _ _ _ _ (loadLine_skip _ line hoc), loadLines_nil]
  case entry =>
    intro a r hsp
    have hocc : occurs sepChars line = true := by
      cases hoc : occurs sepChars line with
      | true => rfl
      | false =>
        rw [(splitSep_singleton_iff line).mp hoc] at hsp
        simp at hsp
    have hline : loadLine { cat := [], pfx := pfx0 } line =
        Except.ok { cat := [(pystrip a, pystrip r)], pfx := pfx0 } := by
      unfold loadLine
      rw [hocc, hsp]
      simp [keyMem, prefixCheck]
    rw [loadLines_cons_ok _ _ _ _ hline, loadLines_nil]
  case crash =>
    intro hlen
    have hocc : occurs sepChars line = true := by
      cases hoc : occurs sepChars line with
      | true => rfl
      | false =>
        rw [(splitSep_singleton_iff line).mp hoc] at hlen
        simp at hlen
    rcases hsp : splitSep [] line with - | ⟨x, t⟩
    · rw [hsp] at hlen; simp at hlen
    rcases t with - | ⟨y, u⟩
    · rw [hsp] at hlen; simp at hlen
    rcases u with - | ⟨z, w2⟩
    · rw [hsp] at hlen; simp at hlen
    have hline : loadLine { cat := [], pfx := pfx0 } line = Except.error LoadErr.unpack := by
      unfold loadLine
      rw [hocc, hsp]
      simp
    rw [loadLines_cons_err _ _ _ _ hline]

/-- Witness for the amended C5 parsing theorem at the concrete entry line
`key = val`. -/
theorem c5_line_parsing_amended_witness :
    splitSep [] "key = val".data = ["key".data, "val".data] ∧
    loadLines { cat := [], pfx := [] } ["key = val".data] =
      Except.ok { cat := [(pystrip "key".data, pystrip "val".data)], pfx := [] } :=
  ⟨rfl, (c5_line_parsing_amended [] "key = val".data).2.1 "key".data "val".data rfl⟩

/- ------------------------------------------------------------------ -/
/- C8: duplicate keys                                                 -/
/- ------------------------------------------------------------------ -/

lemma loadLine_ok_cases (st st2 : CatState) (l : List Char)
    (h : loadLine st l = Except.ok st2) :
    st2 = st ∨
    ∃ d r, splitSep [] l = [d, r] ∧ keyMem (pystrip d) st.cat = false ∧
      st2 = { st with cat := st.cat ++ [(pystrip d, pystrip r)] } := by
  unfold loadLine at h
  cases hoc : occurs sepChars l with
  | false =>
    rw [hoc] at h
    simp at h
    exact Or.inl h.symm
  | true =>
    rw [hoc] at h
    simp only [if_true] at h
    rcases hsp : splitSep [] l with - | ⟨x, t⟩
    · rw [hsp] at h; exact absurd h (by simp)
    rcases t with - | ⟨y, u⟩
    · rw [hsp] at h; exact absurd h (by simp)
    rcases u with - | ⟨z, w2⟩
    · rw [hsp] at h
      have h3 : (if keyMem (pystrip x) st.cat = true then
            (Except.error LoadErr.duplicate : Except LoadErr CatState)
          else if prefixCheck (pystrip x) = true then Except.ok { st with pfx := pystrip y }
          else Except.ok { st with cat := st.cat ++ [(pystrip x, pystrip y)] }) =
          Except.ok st2 := h
      cases hkm : keyMem (pystrip x) st.cat with
      | true => rw [hkm] at h3; simp at h3
      | false =>
        rw [hkm] at h3
        simp only [prefixCheck, Bool.false_eq_true, if_false, Except.ok.injEq] at h3
        exact Or.inr ⟨x, y, rfl, hkm, h3.symm⟩
    · rw [hsp] at h; exact absurd h (by simp)

lemma loadLines_ok_nodup (lines : List (List Char)) (st st2 : CatState)
    (h : loadLines st lines = Except.ok st2)
    (hnd : (st.cat.map Prod.fst).Nodup) : (st2.cat.map Prod.fst).Nodup := by
  induction lines generalizing st with
  | nil =>
    rw [loadLines_nil] at h
    simp at h
    rw [← h]
    exact hnd
  | cons l rest ih =>
    cases hline : loadLine st l with
    | error e => rw [loadLines_cons_err _ _ _ _ hline] at h; exact absurd h (by simp)
    | ok stm =>
      rw [loadLines_cons_ok _ _ _ _ hline] at h
      rcases loadLine_ok_cases st stm l hline with heq | ⟨d, r, -, hkm, heq⟩
      · exact ih stm (heq ▸ h) (heq ▸ hnd)
      · refine ih stm h ?_
        rw [heq]
        simp only [List.map_append]
        rw [List.nodup_append]
        refine ⟨hnd, by simp, ?_⟩
        intro k hk1 hk2
        simp at hk2
        rw [keyMem_eq_false] at hkm
        obtain ⟨p, hp, hpe⟩ := List.mem_map.mp hk1
        exact hkm p hp (by rw [hpe, ← hk2])

lemma entryKeys_nil : entryKeys [] = [] := rfl

lemma entryKeys_skip (l : List Char) (rest : List (List Char))
    (h : occurs sepChars l = false) : entryKeys (l :: rest) = entryKeys rest := by
  unfold entryKeys
  rw [List.filter_cons_of_neg (by simp [h])]

lemma entryKeys_entry (l : List Char) (rest : List (List Char))
    (h : occurs sepChars l = true) :
    entryKeys (l :: rest) = pystrip ((splitSep [] l).headD []) :: entryKeys rest := by
  unfold entryKeys
  rw [List.filter_cons_of_pos (by simp [h]), List.map_cons]

lemma loadLines_dup_error (lines : List (List Char)) (st : CatState)
    (hclean : ∀ l ∈ lines, occurs sepChars l = true → (splitSep [] l).length = 2)
    (hnd : (st.cat.map Prod.fst).Nodup)
    (hdup : ¬((st.cat.map Prod.fst) ++ entryKeys lines).Nodup) :
    loadLines st lines = Except.error LoadErr.duplicate := by
  induction lines generalizing st with
  | nil =>
    rw [entryKeys_nil, List.append_nil] at hdup
    exact absurd hnd hdup
  | cons l rest ih =>
    cases hoc : occurs sepChars l with
    | false =>
      rw [loadLines_cons_ok _ _ _ _ (loadLine_skip st l hoc)]
      rw [entryKeys_skip l rest hoc] at hdup
      exact ih st (fun x hx => hclean x (List.mem_cons_of_mem l hx)) hnd hdup
    | true =>
      obtain ⟨d, r, hdr⟩ := List.length_eq_two.mp (hclean l (List.mem_cons_self l rest) hoc)
      rw [entryKeys_entry l rest hoc, hdr] at hdup
      simp only [List.headD_cons] at hdup
      cases hkm : keyMem (pystrip d) st.cat with
      | true =>
        have hline : loadLine st l = Except.error LoadErr.duplicate := by
          unfold loadLine
          rw [hoc, hdr]
          simp [hkm]
        rw [loadLines_cons_err _ _ _ _ hline]
      | false =>
        have hline : loadLine st l =
            Except.ok { st with cat := st.cat ++ [(pystrip d, pystrip r)] } := by
          unfold loadLine
          rw [hoc, hdr]
          simp [hkm, prefixCheck]
        rw [loadLines_cons_ok _ _ _ _ hline]
        refine ih _ (fun x hx => hclean x (List.mem_cons_of_mem l hx)) ?_ ?_
        · simp only [List.map_append]
          rw [List.nodup_append]
          refine ⟨hnd, by simp, ?_⟩
          intro k hk1 hk2
          simp at hk2
          rw [keyMem_eq_false] at hkm
          obtain ⟨p, hp, hpe⟩ := List.mem_map.mp hk1
          exact hkm p hp (by rw [hpe, ← hk2])
        · intro hcon
          apply hdup
          simp only [List.map_append] at hcon
          rw [List.append_assoc] at hcon
          simpa using hcon

/-- C8 counterexample: the claim is not true for every file in which a
directory key repeats over entry lines: in the file with lines
`a = b`, `x = y = z`, `a = c` the key `a` occurs on two entry lines, yet
loading fails with the uncaught unpacking `ValueError` on the middle
line — not with the duplicate-entry `error_message` diagnostic. -/
theorem c8_duplicate_counterexample :
    loadLines { cat := [], pfx := [] } ["a = b".data, "x = y = z".data, "a = c".data] =
      Except.error LoadErr.unpack ∧
    loadLines { cat := [], pfx := [] } ["a = b".data, "x = y = z".data, "a = c".data] ≠
      Except.error LoadErr.duplicate :=
  ⟨rfl, fun h => LoadErr.noConfusion (Except.error.inj h)⟩

/-- C8 (amended): loading a catalogue whose entry lines each split into
exactly two parts and in which some directory key occurs on more than one
entry line fails with the duplicate-entry fatal error (the
`error_message` path, exit status 1); and in every case loading never
silently overwrites an entry: any successful load has pairwise-distinct
directory keys. -/
theorem c8_duplicate_rejection (pfx0 : List Char) (lines : List (List Char))
    (hclean : ∀ l ∈ lines, occurs sepChars l = true → (splitSep [] l).length = 2)
    (hdup : ¬(entryKeys lines).Nodup) :
    loadLines { cat := [], pfx := pfx0 } lines = Except.error LoadErr.duplicate ∧
    loadExit (loadLines { cat := [], pfx := pfx0 } lines) = 1 ∧
    (∀ pfx1 lines2 st2, loadLines { cat := [], pfx := pfx1 } lines2 = Except.ok st2 →
      (st2.cat.map Prod.fst).Nodup) := by
  have h1 : loadLines { cat := [], pfx := pfx0 } lines = Except.error LoadErr.duplicate :=
    loadLines_dup_error lines { cat := [], pfx := pfx0 } hclean (by simp)
      (by simpa using hdup)
  refine ⟨h1, by rw [h1]; rfl, ?_⟩
  intro pfx1 lines2 st2 hok
  exact loadLines_ok_nodup lines2 { cat := [], pfx := pfx1 } st2 hok (by simp)

/-- Witness for C8 on the concrete duplicate-key file `a = b`, `a = c`. -/
theorem c8_duplicate_rejection_witness :
    ((∀ l ∈ ["a = b".data, "a = c".data],
        occurs sepChars l = true → (splitSep [] l).length = 2) ∧
     ¬(entryKeys ["a = b".data, "a = c".data]).Nodup) ∧
    loadLines { cat := [], pfx := [] } ["a = b".data, "a = c".data] =
      Except.error LoadErr.duplicate :=
  ⟨⟨by decide, by decide⟩,
    (c8_duplicate_rejection [] ["a = b".data, "a = c".data] (by decide) (by decide)).1⟩

/- ------------------------------------------------------------------ -/
/- C4: executor error classification                                  -/
/- ------------------------------------------------------------------ -/

/-- C4: a non-zero exit status of the external tool never raises (the
embedding of `Git.__init__` is a total function of the subprocess
outcome); the result records `git_command_ok = false`, the boolean
coercion `__bool__` equals that field, and the formatted diagnostic
embeds the repository key, the subcommand, the options and the indented
stderr text. -/
theorem c4_executor_classification (rep command options : List Char) (rc : Int)
    (stdout stderr : List Char) (h : rc ≠ 0) :
    (mkGit rep command options rc stdout stderr).gitCommandOk = false ∧
    gitBool (mkGit rep command options rc stdout stderr) =
      (mkGit rep command options rc stdout stderr).gitCommandOk ∧
    ∃ d, (mkGit rep command options rc stdout stderr).errMsg = some d ∧
      (∃ u v, d = u ++ rep ++ v) ∧ (∃ u v, d = u ++ command ++ v) ∧
      (∃ u v, d = u ++ options ++ v) ∧ (∃ u v, d = u ++ indentStderr stderr ++ v) := by
  have hbe : (rc == 0) = false := beq_eq_false_iff_ne.mpr h
  refine ⟨?_, rfl, ?_⟩
  · show (rc == 0) = false
    exact hbe
  · refine ⟨rep ++ ": there was an error using git ".data ++ command ++ ' ' :: options ++
      '\n' :: ' ' :: ' ' :: indentStderr stderr ++ ['\n'], ?_, ?_, ?_, ?_, ?_⟩
    · show (if (rc == 0) = true then none else some _) = some _
      rw [hbe]
      simp
    · exact ⟨[], ": there was an error using git ".data ++ command ++ ' ' :: options ++
        '\n' :: ' ' :: ' ' :: indentStderr stderr ++ ['\n'], by simp⟩
    · exact ⟨rep ++ ": there was an error using git ".data,
        ' ' :: options ++ '\n' :: ' ' :: ' ' :: indentStderr stderr ++ ['\n'], by simp⟩
    · exact ⟨rep ++ ": there was an error using git ".data ++ command ++ [' '],
        '\n' :: ' ' :: ' ' :: indentStderr stderr ++ ['\n'], by simp⟩
    · exact ⟨rep ++ ": there was an error using git ".data ++ command ++ ' ' :: options ++
        ['\n', ' ', ' '], ['\n'], by simp⟩

/-- Witness for C4 at a concrete failed invocation (exit status 1). -/
theorem c4_executor_classification_witness :
    ((1 : Int) ≠ 0) ∧
    ((mkGit "Code/Prog1".data "commit".data "--all".data 1 [] "boom".data).gitCommandOk
        = false ∧
     gitBool (mkGit "Code/Prog1".data "commit".data "--all".data 1 [] "boom".data) =
      (mkGit "Code/Prog1".data "commit".data "--all".data 1 [] "boom".data).gitCommandOk ∧
     ∃ d, (mkGit "Code/Prog1".data "commit".data "--all".data 1 [] "boom".data).errMsg
        = some d ∧
      (∃ u v, d = u ++ "Code/Prog1".data ++ v) ∧ (∃ u v, d = u ++ "commit".data ++ v) ∧
      (∃ u v, d = u ++ "--all".data ++ v) ∧
      (∃ u v, d = u ++ indentStderr "boom".data ++ v)) :=
  ⟨by decide,
    c4_executor_classification "Code/Prog1".data "commit".data "--all".data 1 [] "boom".data
      (by decide)⟩

/- ------------------------------------------------------------------ -/
/- C6: the remove command                                             -/
/- ------------------------------------------------------------------ -/

/-- C6: the claimed behaviour of `remove` (check the catalogue, delete
and persist, or fail through the one-line fatal error path) never
happens: the source's condition `rep in self.catalogue` reads the name
`rep`, which is bound nowhere in `GitCat.remove` nor globally, so every
invocation raises an uncaught `NameError` before any catalogue check,
deletion, save, or `error_message` call. -/
theorem c6_remove_name_error (pfx cwd : List Char) (gitDirectory : Option (List Char))
    (cat : List (List Char × List Char)) :
    removeCmd pfx gitDirectory cwd cat = Except.error (RunErr.exc PyExc.nameError) := rfl

/- ------------------------------------------------------------------ -/
/- C9: invalid filter patterns                                        -/
/- ------------------------------------------------------------------ -/

/-- C9 counterexample: with a filter whose compilation fails (an invalid
regular expression), the selection does not abort through the one-line
`error_message` diagnostic the claim describes: the `re.error` raised by
`re.compile` propagates as an uncaught exception. -/
theorem c9_filter_pattern_counterexample :
    repositoriesSelect true (Except.error ()) ["Code/Prog1".data] =
      Except.error (RunErr.exc PyExc.reError) ∧
    isFatalMsg (repositoriesSelect true (Except.error ()) ["Code/Prog1".data]) = false ∧
    isUncaughtExc (repositoriesSelect true (Except.error ()) ["Code/Prog1".data]) = true :=
  ⟨rfl, rfl, rfl⟩

/-- C9 (amended): an invalid filter pattern makes `GitCat.repositories`
propagate the regex-compilation error as an uncaught exception — fatal to
the whole invocation with the interpreter's traceback and exit status 1 —
not as a handled one-line diagnostic; a valid pattern filters the keys by
substring search, and without a filter all keys are returned. -/
theorem c9_filter_pattern_amended (keys : List (List Char)) :
    (repositoriesSelect true (Except.error ()) keys =
        Except.error (RunErr.exc PyExc.reError) ∧
      isFatalMsg (repositoriesSelect true (Except.error ()) keys) = false) ∧
    (∀ search, repositoriesSelect true (Except.ok search) keys =
        Except.ok (keys.filter search)) ∧
    (∀ compiled, repositoriesSelect false compiled keys = Except.ok keys) :=
  ⟨⟨rfl, rfl⟩, fun _ => rfl, fun _ => rfl⟩

/- ------------------------------------------------------------------ -/
/- C7: the diff command                                               -/
/- ------------------------------------------------------------------ -/

/-- C7: contrary to the claim, `GitCat.diff` never runs a diff against
HEAD.  The source line `Git(rep, 'diff' 'options')` concatenates two
adjacent string literals, so the issued subcommand is the literal
`diffoptions` with empty options — the computed option string ending in
`' HEAD'` is discarded — and since that invalid invocation fails
(modelled by `diffOk = false`), no `up to date` line and no diff output
is ever reported. -/
theorem c7_diff_invocation_bug (rep : List Char) (e : RepoEnv)
    (hrepo : isRepoB e = true) (hdo : e.diffOk = false) :
    (diffStepCmd rep e).calls = [probeCall, diffCmdCall] ∧
    diffCmdCall.cmd = "diffoptions".data ∧
    diffCmdCall.cmd ≠ "diff".data ∧
    occurs "HEAD".data diffCmdCall.opts = false ∧
    (diffStepCmd rep e).msgs = [] := by
  have hdir : e.dirExists = true := by
    have h2 := hrepo
    unfold isRepoB at h2
    simp only [Bool.and_eq_true] at h2
    exact h2.1
  have hcalls : (diffStepCmd rep e).calls = [probeCall, diffCmdCall] := by
    unfold diffStepCmd probeCalls
    rw [hrepo, hdir]
    simp
  refine ⟨hcalls, rfl, by decide, by decide, ?_⟩
  unfold diffStepCmd
  rw [hrepo]
  simp [hdo]

/-- Witness for C7 at the concrete oracle `e7`. -/
theorem c7_diff_invocation_bug_witness :
    (isRepoB e7 = true ∧ e7.diffOk = false) ∧
    ((diffStepCmd "Code/Prog1".data e7).calls = [probeCall, diffCmdCall] ∧
     diffCmdCall.cmd = "diffoptions".data ∧
     diffCmdCall.cmd ≠ "diff".data ∧
     occurs "HEAD".data diffCmdCall.opts = false ∧
     (diffStepCmd "Code/Prog1".data e7).msgs = []) :=
  ⟨⟨by decide, by decide⟩, c7_diff_invocation_bug "Code/Prog1".data e7 (by decide) (by decide)⟩

/- ------------------------------------------------------------------ -/
/- C3: per-repository failure containment                             -/
/- ------------------------------------------------------------------ -/

/-- C3: for every multi-repository command, every selection of catalogue
keys and every assignment of per-repository oracles — in particular any
in which a probe or tool invocation exits non-zero — the loop completes
normally: every selected key is processed (one result per key, in order)
and the process exit status stays 0.  No iteration body reaches
`error_message` or raises; the only fallible operation, the catalogue
subscript of `install`/`ls`, succeeds because the selected keys come from
the catalogue. -/
theorem c3_failure_containment (k : CmdK) (P : RunParams)
    (cat : List (List Char × List Char)) (sel : List (List Char))
    (envf : List Char → RepoEnv)
    (hsel : ∀ r ∈ sel, (catLookup cat r).isSome = true) :
    ∃ outs, runCmd k P cat sel envf = Except.ok outs ∧ outs.length = sel.length ∧
      exitCode (runCmd k P cat sel envf) = 0 := by
  induction sel with
  | nil => exact ⟨[], rfl, rfl, rfl⟩
  | cons r rest ih =>
    obtain ⟨outs, hok, hlen, -⟩ := ih (fun x hx => hsel x (List.mem_cons_of_mem r hx))
    have hstep : ∃ out, stepOf k P cat r (envf r) = Except.ok out := by
      cases k with
      | installK =>
        obtain ⟨v, hv⟩ := Option.isSome_iff_exists.mp (hsel r (List.mem_cons_self r rest))
        refine ⟨installStep P.dry P.pfx v r (envf r), ?_⟩
        unfold stepOf
        rw [hv]
      | lsK =>
        obtain ⟨v, hv⟩ := Option.isSome_iff_exists.mp (hsel r (List.mem_cons_self r rest))
        refine ⟨lsStep P.maxw r v (envf r), ?_⟩
        unfold stepOf
        rw [hv]
      | fetchK => exact ⟨_, rfl⟩
      | pullK => exact ⟨_, rfl⟩
      | pushK => exact ⟨_, rfl⟩
      | statusK => exact ⟨_, rfl⟩
      | branchK => exact ⟨_, rfl⟩
      | diffK => exact ⟨_, rfl⟩
      | commitK => exact ⟨_, rfl⟩
    obtain ⟨out, hout⟩ := hstep
    have hrun : runCmd k P cat (r :: rest) envf = Except.ok (out :: outs) := by
      simp only [runCmd]
      rw [hout, hok]
    exact ⟨out :: outs, hrun, by simp [hlen], by rw [hrun]; rfl⟩

/-- Witness for C3: the fetch loop over a one-key selection processes the
key and exits with status 0. -/
theorem c3_failure_containment_witness :
    (∀ r ∈ c3sel, (catLookup c3cat r).isSome = true) ∧
    ∃ outs, runCmd CmdK.fetchK P0 c3cat c3sel c3envf = Except.ok outs ∧
      outs.length = c3sel.length ∧
      exitCode (runCmd CmdK.fetchK P0 c3cat c3sel c3envf) = 0 :=
  ⟨by decide, c3_failure_containment CmdK.fetchK P0 c3cat c3sel c3envf (by decide)⟩

/- ------------------------------------------------------------------ -/
/- C2: do no harm                                                     -/
/- ------------------------------------------------------------------ -/

lemma occurs_porcelain_commitOpts (out : List Char) :
    occurs porcelainChars (commitOpts true out) = true := by
  unfold commitOpts
  rw [if_pos rfl]
  exact occurs_append_right _ _ _ (by decide)

lemma commitCall_dry_not_mutating (out : List Char) :
    realMutating (commitCall true out) = false := by
  unfold realMutating isClone isRealCommit isRealPush commitCall
  simp only
  rw [occurs_porcelain_commitOpts]
  rfl

lemma pushDryCall_not_mutating (optsP : List Char) :
    realMutating (pushDryCall optsP) = false := by
  unfold realMutating isClone isRealCommit isRealPush pushDryCall
  simp only
  rw [occurs_append_right dryRunChars optsP " --dry-run".data (by decide)]
  rfl

lemma isRealPush_pushDryCall (optsP : List Char) :
    isRealPush (pushDryCall optsP) = false := by
  unfold isRealPush pushDryCall
  simp only
  rw [occurs_append_right dryRunChars optsP " --dry-run".data (by decide)]
  rfl

lemma isRealCommit_commitCall_dry (out : List Char) :
    isRealCommit (commitCall true out) = false := by
  unfold isRealCommit commitCall
  simp only
  rw [occurs_porcelain_commitOpts]
  rfl

lemma probeCalls_mem (e : RepoEnv) (g : GitCall) (hg : g ∈ probeCalls e) : g = probeCall := by
  unfold probeCalls at hg
  by_cases hd : e.dirExists = true
  · rw [if_pos hd] at hg
    simpa using hg
  · rw [if_neg hd] at hg
    simp at hg

lemma commitRepoCalls_mem (dry : Bool) (e : RepoEnv) (g : GitCall)
    (hg : g ∈ commitRepoCalls dry e) :
    g = diffIndexCall ∨
    (g = commitCall dry e.diffIndexOut ∧ e.diffIndexOk = true ∧ ¬(e.diffIndexOut = []) ∧
      commitRepoCalls dry e = [diffIndexCall, commitCall dry e.diffIndexOut]) := by
  unfold commitRepoCalls at hg ⊢
  by_cases hc : (e.diffIndexOk && !(e.diffIndexOut = [])) = true
  · rw [if_pos hc] at hg ⊢
    have hc2 := hc
    simp only [Bool.and_eq_true, Bool.not_eq_true', decide_eq_false_iff_not] at hc2
    rcases List.mem_cons.mp hg with h | h
    · exact Or.inl h
    · rcases List.mem_cons.mp h with h2 | h2
      · exact Or.inr ⟨h2, hc2.1, hc2.2, rfl⟩
      · simp at h2
  · rw [if_neg hc] at hg
    rcases List.mem_cons.mp hg with h | h
    · exact Or.inl h
    · simp at h

lemma base_mem_disj (dry : Bool) (optsP rep : List Char) (e : RepoEnv) (g : GitCall)
    (tail : List GitCall)
    (hcv : (pushStep dry optsP rep e).calls = probeCalls e ++ commitRepoCalls dry e ++ tail)
    (hg : g ∈ probeCalls e ++ commitRepoCalls dry e) :
    g = probeCall ∨ g = diffIndexCall ∨
    (g = commitCall dry e.diffIndexOut ∧ e.diffIndexOk = true ∧ ¬(e.diffIndexOut = []) ∧
      ∃ t2, (pushStep dry optsP rep e).calls =
        probeCalls e ++ diffIndexCall :: commitCall dry e.diffIndexOut :: t2) := by
  rcases List.mem_append.mp hg with h | h
  · exact Or.inl (probeCalls_mem e g h)
  · rcases commitRepoCalls_mem dry e g h with h2 | ⟨h2, h3, h4, h5⟩
    · exact Or.inr (Or.inl h2)
    · refine Or.inr (Or.inr ⟨h2, h3, h4, tail, ?_⟩)
      rw [hcv, h5]
      simp

lemma pushStep_calls_mem (dry : Bool) (optsP rep : List Char) (e : RepoEnv) (g : GitCall)
    (hg : g ∈ (pushStep dry optsP rep e).calls) :
    g = probeCall ∨ g = diffIndexCall ∨
    (g = commitCall dry e.diffIndexOut ∧ e.diffIndexOk = true ∧ ¬(e.diffIndexOut = []) ∧
      ∃ tail, (pushStep dry optsP rep e).calls =
        probeCalls e ++ diffIndexCall :: commitCall dry e.diffIndexOut :: tail) ∨
    g = pushDryCall optsP ∨
    (g = pushRealCall optsP ∧ dry = false ∧ e.pushDryOk = true ∧
      occurs upToDateChars e.pushDryOut = false ∧
      ∃ pre, (pushStep dry optsP rep e).calls =
        pre ++ pushDryCall optsP :: [pushRealCall optsP]) := by
  by_cases h1 : isRepoB e = true
  case neg =>
    have hcv : (pushStep dry optsP rep e).calls = probeCalls e := by
      unfold pushStep
      rw [if_neg h1]
    rw [hcv] at hg
    exact Or.inl (probeCalls_mem e g hg)
  case pos =>
  by_cases h2 : (commitRepoRes dry e).1 = true
  case neg =>
    have hcv : (pushStep dry optsP rep e).calls =
        probeCalls e ++ commitRepoCalls dry e := by
      unfold pushStep
      rw [if_pos h1]
      simp only [if_neg h2]
    rw [hcv] at hg
    have hcv2 : (pushStep dry optsP rep e).calls =
        probeCalls e ++ commitRepoCalls dry e ++ [] := by rw [hcv, List.append_nil]
    rcases base_mem_disj dry optsP rep e g [] hcv2 hg with h | h | h
    · exact Or.inl h
    · exact Or.inr (Or.inl h)
    · exact Or.inr (Or.inr (Or.inl h))
  case pos =>
  by_cases h3 : e.pushDryOk = true
  case neg =>
    have hcv : (pushStep dry optsP rep e).calls =
        probeCalls e ++ commitRepoCalls dry e ++ [pushDryCall optsP] := by
      unfold pushStep
      rw [if_pos h1]
      simp only [if_pos h2, if_neg h3]
    rw [hcv] at hg
    rcases List.mem_append.mp hg with h | h
    · rcases base_mem_disj dry optsP rep e g [pushDryCall optsP] hcv h with h | h | h
      · exact Or.inl h
      · exact Or.inr (Or.inl h)
      · exact Or.inr (Or.inr (Or.inl h))
    · exact Or.inr (Or.inr (Or.inr (Or.inl (by simpa using h))))
  case pos =>
  by_cases h4 : occurs upToDateChars e.pushDryOut = true
  case pos =>
    have hcv : (pushStep dry optsP rep e).calls =
        probeCalls e ++ commitRepoCalls dry e ++ [pushDryCall optsP] := by
      unfold pushStep
      rw [if_pos h1]
      simp only [if_pos h2, if_pos h3, if_pos h4]
    rw [hcv] at hg
    rcases List.mem_append.mp hg with h | h
    · rcases base_mem_disj dry optsP rep e g [pushDryCall optsP] hcv h with h | h | h
      · exact Or.inl h
      · exact Or.inr (Or.inl h)
      · exact Or.inr (Or.inr (Or.inl h))
    · exact Or.inr (Or.inr (Or.inr (Or.inl (by simpa using h))))
  case neg =>
  by_cases h5 : dry = true
  case pos =>
    have hcv : (pushStep dry optsP rep e).calls =
        probeCalls e ++ commitRepoCalls dry e ++ [pushDryCall optsP] := by
      unfold pushStep
      rw [if_pos h1]
      simp only [if_pos h2, if_pos h3, if_neg h4, if_pos h5]
    rw [hcv] at hg
    rcases List.mem_append.mp hg with h | h
    · rcases base_mem_disj dry optsP rep e g [pushDryCall optsP] hcv h with h | h | h
      · exact Or.inl h
      · exact Or.inr (Or.inl h)
      · exact Or.inr (Or.inr (Or.inl h))
    · exact Or.inr (Or.inr (Or.inr (Or.inl (by simpa using h))))
  case neg =>
    have hcv : (pushStep dry optsP rep e).calls =
        probeCalls e ++ commitRepoCalls dry e ++ [pushDryCall optsP, pushRealCall optsP] := by
      unfold pushStep
      rw [if_pos h1]
      simp only [if_pos h2, if_pos h3, if_neg h4, if_neg h5]
    rw [hcv] at hg
    rcases List.mem_append.mp hg with h | h
    · rcases base_mem_disj dry optsP rep e g [pushDryCall optsP, pushRealCall optsP] hcv h
        with h | h | h
      · exact Or.inl h
      · exact Or.inr (Or.inl h)
      · exact Or.inr (Or.inr (Or.inl h))
    · rcases List.mem_cons.mp h with h6 | h6
      · exact Or.inr (Or.inr (Or.inr (Or.inl h6)))
      · refine Or.inr (Or.inr (Or.inr (Or.inr ⟨by simpa using h6,
          Bool.eq_false_iff.mpr h5, h3, Bool.eq_false_iff.mpr h4,
          probeCalls e ++ commitRepoCalls dry e, ?_⟩)))
        rw [hcv]

lemma commitStep_calls_mem (dry : Bool) (e : RepoEnv) (g : GitCall)
    (hg : g ∈ (commitStepCmd dry e).calls) :
    g = probeCall ∨ g = diffIndexCall ∨
    (g = commitCall dry e.diffIndexOut ∧ e.diffIndexOk = true ∧ ¬(e.diffIndexOut = []) ∧
      (commitStepCmd dry e).calls =
        probeCalls e ++ diffIndexCall :: [commitCall dry e.diffIndexOut]) := by
  unfold commitStepCmd at hg ⊢
  by_cases h1 : isRepoB e = true
  · rw [if_pos h1] at hg ⊢
    rcases List.mem_append.mp hg with h | h
    · exact Or.inl (probeCalls_mem e g h)
    · rcases commitRepoCalls_mem dry e g h with h2 | ⟨h2, h3, h4, h5⟩
      · exact Or.inr (Or.inl h2)
      · exact Or.inr (Or.inr ⟨h2, h3, h4, by rw [h5]⟩)
  · rw [if_neg h1] at hg
    exact Or.inl (probeCalls_mem e g (by simpa using hg))

lemma installStep_calls_mem (dry : Bool) (pfx remote rep : List Char) (e : RepoEnv)
    (g : GitCall) (hg : g ∈ (installStep dry pfx remote rep e).calls) :
    g = probeCall ∨
    (e.dirExists = true ∧ e.gitDirExists = false ∧
      (g = { cmd := "init".data, opts := [] } ∨
       g = { cmd := "remote add origin ".data ++ remote, opts := [] } ∨
       g = { cmd := "fetch origin".data, opts := [] } ∨
       g = { cmd := "checkout -b master --track origin/master".data, opts := [] })) ∨
    (dry = false ∧ e.dirExists = false ∧
      g = { cmd := cloneChars,
            opts := "--quiet ".data ++ remote ++ ' ' :: basename (expandPath pfx rep) }) := by
  unfold installStep at hg
  rcases List.mem_append.mp hg with hm | hp
  · by_cases hd : e.dirExists = true
    · by_cases hgit : e.gitDirExists = true
      · rw [if_pos hd, if_pos hgit] at hm
        simp at hm
      · rw [if_pos hd, if_neg hgit] at hm
        rcases List.mem_cons.mp hm with h | h
        · exact Or.inr (Or.inl ⟨hd, Bool.eq_false_iff.mpr hgit, Or.inl h⟩)
        · rcases List.mem_cons.mp h with h | h
          · exact Or.inr (Or.inl ⟨hd, Bool.eq_false_iff.mpr hgit, Or.inr (Or.inl h)⟩)
          · rcases List.mem_cons.mp h with h | h
            · exact Or.inr (Or.inl ⟨hd, Bool.eq_false_iff.mpr hgit, Or.inr (Or.inr (Or.inl h))⟩)
            · rcases List.mem_cons.mp h with h | h
              · exact Or.inr (Or.inl ⟨hd, Bool.eq_false_iff.mpr hgit,
                  Or.inr (Or.inr (Or.inr h))⟩)
              · simp at h
    · by_cases hdry : dry = true
      · rw [if_neg hd, if_pos hdry] at hm
        simp at hm
      · rw [if_neg hd, if_neg hdry] at hm
        rcases List.mem_cons.mp hm with h | h
        · exact Or.inr (Or.inr ⟨Bool.eq_false_iff.mpr hdry, Bool.eq_false_iff.mpr hd, h⟩)
        · simp at h
  · by_cases hdry : dry = true
    · rw [if_pos hdry] at hp
      simp at hp
    · rw [if_neg hdry] at hp
      by_cases hafter : e.dirExistsAfter = true
      · rw [if_pos hafter] at hp
        exact Or.inl (by simpa using hp)
      · rw [if_neg hafter] at hp
        simp at hp

/-- C2: do no harm.  Under the global dry-run toggle the push, commit and
install steps issue no real mutating git action (no clone, no
non-porcelain commit, no non-dry-run push).  Moreover a real push is
issued only after the dry-run push probe succeeded without reporting
`[up to date]` (and appears after that probe in the issued-call order), a
real commit is issued only after the changed-files probe succeeded and
listed files (and appears after it), and a clone is issued only when the
target directory was found missing and dry-run is off. -/
theorem c2_do_no_harm (dry : Bool) (optsP pfx remote rep : List Char) (e : RepoEnv) :
    (dry = true →
      (∀ g ∈ (pushStep dry optsP rep e).calls, realMutating g = false) ∧
      (∀ g ∈ (commitStepCmd dry e).calls, realMutating g = false) ∧
      (∀ g ∈ (installStep dry pfx remote rep e).calls, realMutating g = false)) ∧
    (∀ g ∈ (pushStep dry optsP rep e).calls, isRealPush g = true →
      dry = false ∧ e.pushDryOk = true ∧ occurs upToDateChars e.pushDryOut = false ∧
      ∃ pre, (pushStep dry optsP rep e).calls =
        pre ++ pushDryCall optsP :: [pushRealCall optsP]) ∧
    (∀ g ∈ (pushStep dry optsP rep e).calls, isRealCommit g = true →
      dry = false ∧ e.diffIndexOk = true ∧ ¬(e.diffIndexOut = []) ∧
      ∃ tail, (pushStep dry optsP rep e).calls =
        probeCalls e ++ diffIndexCall :: commitCall dry e.diffIndexOut :: tail) ∧
    (∀ g ∈ (commitStepCmd dry e).calls, isRealCommit g = true →
      dry = false ∧ e.diffIndexOk = true ∧ ¬(e.diffIndexOut = []) ∧
      (commitStepCmd dry e).calls =
        probeCalls e ++ diffIndexCall :: [commitCall dry e.diffIndexOut]) ∧
    (∀ g ∈ (installStep dry pfx remote rep e).calls, isClone g = true →
      dry = false ∧ e.dirExists = false) := by
  refine ⟨?dryPart, ?realPush, ?realCommitPush, ?realCommitCmd, ?clonePart⟩
  case dryPart =>
    intro hdry
    subst hdry
    refine ⟨?_, ?_, ?_⟩
    · intro g hg
      rcases pushStep_calls_mem true optsP rep e g hg with h | h | h | h | h
      · rw [h]; decide
      · rw [h]; decide
      · rw [h.1]; exact commitCall_dry_not_mutating _
      · rw [h]; exact pushDryCall_not_mutating _
      · exact absurd h.2.1 (by decide)
    · intro g hg
      rcases commitStep_calls_mem true e g hg with h | h | h
      · rw [h]; decide
      · rw [h]; decide
      · rw [h.1]; exact commitCall_dry_not_mutating _
    · intro g hg
      rcases installStep_calls_mem true pfx remote rep e g hg with h | h | h
      · rw [h]; decide
      · rcases h.2.2 with h2 | h2 | h2 | h2 <;> rw [h2] <;> rfl
      · exact absurd h.1 (by decide)
  case realPush =>
    intro g hg hreal
    rcases pushStep_calls_mem dry optsP rep e g hg with h | h | h | h | h
    · rw [h] at hreal; exact absurd hreal (by decide)
    · rw [h] at hreal; exact absurd hreal (by decide)
    · rw [h.1] at hreal
      have hfx : isRealPush (commitCall dry e.diffIndexOut) = false := rfl
      rw [hfx] at hreal
      exact absurd hreal (by decide)
    · rw [h, isRealPush_pushDryCall] at hreal
      exact absurd hreal (by decide)
    · exact ⟨h.2.1, h.2.2.1, h.2.2.2.1, h.2.2.2.2⟩
  case realCommitPush =>
    intro g hg hreal
    rcases pushStep_calls_mem dry optsP rep e g hg with h | h | h | h | h
    · rw [h] at hreal; exact absurd hreal (by decide)
    · rw [h] at hreal; exact absurd hreal (by decide)
    · cases hdry : dry with
      | true =>
        subst hdry
        rw [h.1, isRealCommit_commitCall_dry] at hreal
        exact absurd hreal (by decide)
      | false =>
        subst hdry
        exact ⟨rfl, h.2.1, h.2.2.1, h.2.2.2⟩
    · rw [h] at hreal
      have hfx : isRealCommit (pushDryCall optsP) = false := rfl
      rw [hfx] at hreal
      exact absurd hreal (by decide)
    · rw [h.1] at hreal
      have hfx : isRealCommit (pushRealCall optsP) = false := rfl
      rw [hfx] at hreal
      exact absurd hreal (by decide)
  case realCommitCmd =>
    intro g hg hreal
    rcases commitStep_calls_mem dry e g hg with h | h | h
    · rw [h] at hreal; exact absurd hreal (by decide)
    · rw [h] at hreal; exact absurd hreal (by decide)
    · cases hdry : dry with
      | true =>
        subst hdry
        rw [h.1, isRealCommit_commitCall_dry] at hreal
        exact absurd hreal (by decide)
      | false =>
        subst hdry
        exact ⟨rfl, h.2.1, h.2.2.1, h.2.2.2⟩
  case clonePart =>
    intro g hg hclone
    rcases installStep_calls_mem dry pfx remote rep e g hg with h | h | h
    · rw [h] at hclone; exact absurd hclone (by decide)
    · rcases h.2.2 with h2 | h2 | h2 | h2 <;> rw [h2] at hclone <;>
        exact absurd hclone (by exact fun hx => Bool.noConfusion hx)
    · exact ⟨h.1, h.2.1⟩

/-- Witness for C2: with dry-run off and the concrete oracle `envPush`,
the real push is issued, and the theorem yields that the dry-run push
probe succeeded, did not report `[up to date]`, and precedes the real
push in the issued-call order. -/
theorem c2_do_no_harm_witness :
    (pushRealCall P0.optsPush ∈ (pushStep false P0.optsPush "Code/Prog1".data envPush).calls ∧
     isRealPush (pushRealCall P0.optsPush) = true) ∧
    (false = false ∧ envPush.pushDryOk = true ∧
      occurs upToDateChars envPush.pushDryOut = false ∧
      ∃ pre, (pushStep false P0.optsPush "Code/Prog1".data envPush).calls =
        pre ++ pushDryCall P0.optsPush :: [pushRealCall P0.optsPush]) :=
  ⟨⟨by decide, by decide⟩,
    (c2_do_no_harm false P0.optsPush "/home/u".data "rem".data "Code/Prog1".data envPush).2.1
      (pushRealCall P0.optsPush) (by decide) (by decide)⟩
